import Mathlib

/-!
Shallow embedding of `source/OutfitGroup.cpp` (endless-sky fork).

`OutfitGroup` wraps `std::map<const Outfit*, std::map<int, int>>`: an ordered
map from an outfit (modelled by a `Nat` identifier, ordered the way the
pointer keys order the C++ map) to an ordered "wear ledger" mapping wear
level to quantity.  Ordered `std::map`s are modelled as association lists
strictly sorted by key.  C++ `int` / `int64_t` arithmetic is modelled by ℤ
(no overflow is relevant to the claims), and `double` arithmetic in the cost
model by exact rationals ℚ.
-/

/-- A wear ledger: `std::map<int, int>` (`OutfitGroup::InnerMap`) as a list of
(wear, quantity) pairs, strictly sorted by wear. -/
abbrev InnerMap := List (Int × Int)

/-- The outer map: `std::map<const Outfit*, InnerMap>` (`OutfitGroup::outfits`)
as a list of (outfit id, ledger) pairs, strictly sorted by outfit id. -/
abbrev OuterMap := List (Nat × InnerMap)

/-- Modelled from the spec: the external item-type reference (`Outfit.h` is
not among the sources).  Per spec §3 it exposes an integer base cost
(`Cost()`), a category label (`Category()`) and a boolean "ageless"
attribute (`Get("ageless")` read as a truth value). -/
structure Outfit where
  cost : Int
  category : String
  ageless : Bool
deriving DecidableEq

/-- `DEFAULT_MIN_PRICE = 0.40` from the anonymous namespace. -/
def DEFAULT_MIN_PRICE : ℚ := 2 / 5

/-- `DEFAULT_MAX_PRICE = 0.90` from the anonymous namespace. -/
def DEFAULT_MAX_PRICE : ℚ := 9 / 10

/-- `DEFAULT_DEPRECIATION_RATE = 0.0020` from the anonymous namespace. -/
def DEFAULT_DEPRECIATION_RATE : ℚ := 1 / 500

/-- `static_cast<int64_t>` applied to a double: truncation toward zero,
taken on the exact rational value. -/
def truncQ (q : ℚ) : ℤ := if 0 ≤ q then ⌊q⌋ else ⌈q⌉

/-- `OutfitGroup::CostFunction(int wear, double minValue, double maxValue,
double lossPerDay)`: 1 for wear 0, otherwise the linear depreciation
clamped below at `minValue`. -/
def costFunctionParams (wear : Int) (minValue maxValue lossPerDay : ℚ) : ℚ :=
  if wear = 0 then 1 else max minValue (maxValue - lossPerDay * ((wear : ℚ) - 1))

/-- `OutfitGroup::CostFunction(int wear)`: the default-constant instance. -/
def costFunctionDefault (wear : Int) : ℚ :=
  costFunctionParams wear DEFAULT_MIN_PRICE DEFAULT_MAX_PRICE DEFAULT_DEPRECIATION_RATE

/-- `OutfitGroup::CostFunction(const Outfit *outfit, int wear)`: ageless and
"Ammunition" outfits are priced at wear 0; the double product
`outfit->Cost() * CostFunction(wear)` is truncated to `int64_t`. -/
def costFunction (o : Outfit) (wear : Int) : Int :=
  truncQ ((o.cost : ℚ) *
    costFunctionDefault (if o.ageless = true ∨ o.category = "Ammunition" then 0 else wear))

/-- Quantity stored for wear `w` (0 when absent); sums duplicates so that it
is total on arbitrary lists. -/
def qtyAt : InnerMap → Int → Int
  | [], _ => 0
  | (w0, q0) :: rest, w => (if w0 = w then q0 else 0) + qtyAt rest w

/-- Sum of all quantities of a ledger. -/
def ledgerTotal (m : InnerMap) : Int := (m.map (fun b => b.2)).sum

/-- `OutfitGroup::Find` (as an `Option` instead of a nullable pointer). -/
def findLedger : OuterMap → Nat → Option InnerMap
  | [], _ => none
  | (o0, m0) :: rest, o => if o0 = o then some m0 else findLedger rest o

/-- The ledger of an outfit, reading "absent" as the empty ledger. -/
def ledgerOf (g : OuterMap) (o : Nat) : InnerMap := (findLedger g o).getD []

/-- `OutfitGroup::GetTotalCount`: 0 when the outfit is absent, otherwise the
sum of the quantities of its ledger. -/
def getTotalCount (g : OuterMap) (o : Nat) : Int :=
  match findLedger g o with
  | none => 0
  | some m => ledgerTotal m

/-- The inner-map part of `AddOutfit` on an existing ledger: find `wear`;
absent keys are inserted (in key order, matching `std::map`), present keys
get `+= count` and are erased when the result is exactly zero. -/
def innerAdd : InnerMap → Int → Int → InnerMap
  | [], w, c => [(w, c)]
  | (w0, q0) :: rest, w, c =>
    if w < w0 then (w, c) :: (w0, q0) :: rest
    else if w = w0 then (if q0 + c = 0 then rest else (w0, q0 + c) :: rest)
    else (w0, q0) :: innerAdd rest w c

/-- The state change of `OutfitGroup::AddOutfit`: an absent outfit gets the
fresh one-bucket ledger `[(wear, count)]` (even when `count` is zero or
negative, as in the C++); an existing outfit's ledger goes through
`innerAdd` and the outfit is erased when its ledger has become empty. -/
def addOutfitMap : OuterMap → Nat → Int → Int → OuterMap
  | [], o, c, w => [(o, [(w, c)])]
  | (o0, m0) :: rest, o, c, w =>
    if o < o0 then (o, [(w, c)]) :: (o0, m0) :: rest
    else if o = o0 then
      (if innerAdd m0 w c = [] then rest else (o0, innerAdd m0 w c) :: rest)
    else (o0, m0) :: addOutfitMap rest o c w

/-- `OutfitGroup::AddOutfit`: performs the map update and — like the single
`return count;` of the C++ — returns its `count` argument. -/
def addOutfit (g : OuterMap) (o : Nat) (c w : Int) : Int × OuterMap :=
  (c, addOutfitMap g o c w)

/-- The most-worn-first loop of `RemoveOutfit` (the `do { --iit; ... } while`
walk), acting on the ledger listed most-worn first (i.e. reversed).
Returns (units removed, surviving buckets in the visited order, the
(wear, amount) pairs handed to `to->AddOutfit` in call order).  Buckets
whose quantity reaches exactly zero are dropped (the deferred `toErase`
pass); the loop continues while `count > removed` and buckets remain. -/
def drainMW : Int → InnerMap → Int × InnerMap × InnerMap
  | _, [] => (0, [], [])
  | remaining, (w, q) :: rest =>
    let t := min q remaining
    if 0 < remaining - t then
      let r := drainMW (remaining - t) rest
      (t + r.1, (if q - t = 0 then r.2.1 else (w, q - t) :: r.2.1), (w, t) :: r.2.2)
    else
      (t, (if q - t = 0 then rest else (w, q - t) :: rest), [(w, t)])

/-- The least-worn-first loop of `RemoveOutfit` (the `while (count > removed
&& iit != end)` walk), acting on the ledger in ascending order.  Unlike the
most-worn branch it checks its condition before the first visit. -/
def drainLW : Int → InnerMap → Int × InnerMap × InnerMap
  | _, [] => (0, [], [])
  | remaining, (w, q) :: rest =>
    if remaining ≤ 0 then (0, (w, q) :: rest, [])
    else
      let t := min q remaining
      let r := drainLW (remaining - t) rest
      (t + r.1, (if q - t = 0 then r.2.1 else (w, q - t) :: r.2.1), (w, t) :: r.2.2)

/-- The spec's description of removal, surviving side: walk the buckets in
the given (disposal-policy) order, draining up to `n` units in total, a
drained bucket disappearing; `specDrainRemain n l` is what survives of
`l`.  Stated over the visit-ordered list so that the same function
describes both disposal policies. -/
def specDrainRemain : Int → InnerMap → InnerMap
  | _, [] => []
  | n, (w, q) :: rest =>
    if n ≤ 0 then (w, q) :: rest
    else if q ≤ n then specDrainRemain (n - q) rest
    else (w, q - n) :: rest

/-- The spec's description of removal, removed side: the (wear, amount)
units actually taken, bucket by bucket in visit order, capped at the
available total. -/
def specDrainMoved : Int → InnerMap → InnerMap
  | _, [] => []
  | n, (w, q) :: rest =>
    if n ≤ 0 then []
    else if q ≤ n then (w, q) :: specDrainMoved (n - q) rest
    else [(w, n)]

/-- Dispatch between the two removal loops; for the most-worn branch the
ledger is traversed from the back and the survivors are reported back in
ascending order. -/
def applyDrain (mw : Bool) (c : Int) (m : InnerMap) : Int × InnerMap × InnerMap :=
  if mw then
    let r := drainMW c m.reverse
    (r.1, r.2.1.reverse, r.2.2)
  else drainLW c m

/-- `OutfitGroup::RemoveOutfit` without a destination: locate the outfit
(0 and no change when absent), drain its ledger, and erase the outfit when
the ledger has become empty.  The third component is the list of
(wear, amount) pairs the C++ would pass to `to->AddOutfit`, in order. -/
def removeOutfitGo (o : Nat) (c : Int) (mw : Bool) : OuterMap → Int × OuterMap × InnerMap
  | [] => (0, [], [])
  | (o0, m0) :: rest =>
    if o = o0 then
      let d := applyDrain mw c m0
      (d.1, (if d.2.1 = [] then rest else (o0, d.2.1) :: rest), d.2.2)
    else
      let r := removeOutfitGo o c mw rest
      (r.1, (o0, m0) :: r.2.1, r.2.2)

/-- `OutfitGroup::RemoveOutfit(outfit, count, mostWornFirst)` with `to`
null. -/
def removeOutfit (g : OuterMap) (o : Nat) (c : Int) (mw : Bool) : Int × OuterMap × InnerMap :=
  removeOutfitGo o c mw g

/-- Replace the ledger of `o` (erasing the entry when the new ledger is
empty); used to state what `RemoveOutfit` does to the outer map. -/
def replaceLedger : OuterMap → Nat → InnerMap → OuterMap
  | [], _, _ => []
  | (o0, m0) :: rest, o, m' =>
    if o = o0 then (if m' = [] then rest else (o0, m') :: rest)
    else (o0, m0) :: replaceLedger rest o m'

/-- The surviving ledger of a removal in ascending order, described through
the spec-side drain: the most-worn policy visits the reversed ledger. -/
def specRemainOf (mw : Bool) (c : Int) (m : InnerMap) : InnerMap :=
  if mw then (specDrainRemain c m.reverse).reverse else specDrainRemain c m

/-- The removed (wear, amount) pairs of a removal in visit order, described
through the spec-side drain. -/
def specMovedOf (mw : Bool) (c : Int) (m : InnerMap) : InnerMap :=
  if mw then specDrainMoved c m.reverse else specDrainMoved c m

/-- The removed units of a removal as an ascending-ordered ledger. -/
def movedLedger (mw : Bool) (c : Int) (m : InnerMap) : InnerMap :=
  if mw then (specDrainMoved c m.reverse).reverse else specDrainMoved c m

/-- The deposits `to->AddOutfit(outfit, toRemove, wear)` made during a
removal, applied in call order to the destination group. -/
def depositMoved (dst : OuterMap) (o : Nat) (moved : InnerMap) : OuterMap :=
  moved.foldl (fun d b => (addOutfit d o b.2 b.1).2) dst

/-- `OutfitGroup::RemoveOutfit(outfit, count, mostWornFirst, to)` with a
(distinct) destination group: returns (removed, source after, destination
after). -/
def removeOutfitTo (g : OuterMap) (o : Nat) (c : Int) (mw : Bool) (dst : OuterMap) :
    Int × OuterMap × OuterMap :=
  let r := removeOutfit g o c mw
  (r.1, r.2.1, depositMoved dst o r.2.2)

/-- `OutfitGroup::TransferOutfits(outfit, count, to, mostWornFirst,
defaultWear)`: zero count is a no-op returning 0; with no destination a
positive count removes and a negative count adds `-count` at `defaultWear`
(returning the negated add result); with a destination a negative count is
the reversed positive transfer (the single recursive call is inlined), and
a positive count delegates to `RemoveOutfit` with the destination.
Returns (result, source after, destination after). -/
def transferOutfits (src : OuterMap) (o : Nat) (count : Int) (dst : Option OuterMap)
    (mw : Bool) (defaultWear : Int) : Int × OuterMap × Option OuterMap :=
  if count = 0 then (0, src, dst)
  else
    match dst with
    | none =>
      if 0 < count then
        let r := removeOutfit src o count mw
        (r.1, r.2.1, none)
      else
        let a := addOutfit src o (-count) defaultWear
        (-a.1, a.2, none)
    | some d =>
      if count < 0 then
        let r := removeOutfitTo d o (-count) mw src
        (-r.1, r.2.2, some r.2.1)
      else
        let r := removeOutfitTo src o count mw d
        (r.1, r.2.1, some r.2.2)

/-- `TransferOutfits` between two concrete groups (destination present),
unwrapping the always-`some` destination. -/
def transferPair (a b : OuterMap) (o : Nat) (count : Int) (mw : Bool) (dw : Int) :
    Int × OuterMap × OuterMap :=
  let r := transferOutfits a o count (some b) mw dw
  (r.1, r.2.1, r.2.2.getD b)

/-- `std::map` `operator[]` assignment (`map[w] = q`): insert in key order or
overwrite. -/
def innerStore : InnerMap → Int → Int → InnerMap
  | [], w, q => [(w, q)]
  | (w0, q0) :: rest, w, q =>
    if w < w0 then (w, q) :: (w0, q0) :: rest
    else if w = w0 then (w0, q) :: rest
    else (w0, q0) :: innerStore rest w q

/-- The per-outfit body of `IncrementWear`: copy the ledger, clear it, and
re-insert every bucket with its wear key shifted (`map[w + value] = q`). -/
def rebuildShift (m : InnerMap) (k : Int) : InnerMap :=
  m.foldl (fun acc b => innerStore acc (b.1 + k) b.2) []

/-- `OutfitGroup::IncrementWear`. -/
def incrementWear (g : OuterMap) (k : Int) : OuterMap :=
  g.map (fun p => (p.1, rebuildShift p.2 k))

/-- `OutfitGroup::Clear`. -/
def clearGroup (_ : OuterMap) : OuterMap := []

/-- Wear ledger well-formedness half 1: wear keys strictly ascending (the
`std::map` ordering). -/
def LedgerSorted (m : InnerMap) : Prop := m.Pairwise (fun a b => a.1 < b.1)

/-- Wear ledger well-formedness half 2: every stored quantity positive. -/
def LedgerPos (m : InnerMap) : Prop := ∀ b ∈ m, 0 < b.2

/-- Structural well-formedness of the outer map: keys strictly ascending and
every ledger sorted. -/
def GroupSorted (g : OuterMap) : Prop :=
  g.Pairwise (fun a b => a.1 < b.1) ∧ ∀ p ∈ g, LedgerSorted p.2

/-- The spec's "no empty buckets" invariant: no outfit maps to an empty
ledger, and every quantity in every ledger is strictly positive. -/
def Tidy (g : OuterMap) : Prop := ∀ p ∈ g, p.2 ≠ [] ∧ LedgerPos p.2

/-- Full well-formedness of a group state. -/
def GroupWF (g : OuterMap) : Prop := GroupSorted g ∧ Tidy g

instance decLedgerSorted (m : InnerMap) : Decidable (LedgerSorted m) := by
  unfold LedgerSorted
  infer_instance

instance decLedgerPos (m : InnerMap) : Decidable (LedgerPos m) := by
  unfold LedgerPos
  infer_instance

instance decGroupSorted (g : OuterMap) : Decidable (GroupSorted g) := by
  unfold GroupSorted
  infer_instance

instance decTidy (g : OuterMap) : Decidable (Tidy g) := by
  unfold Tidy
  infer_instance

instance decGroupWF (g : OuterMap) : Decidable (GroupWF g) := by
  unfold GroupWF
  infer_instance

/-- The inner iterator held by a cursor: position `idx` inside the ledger of
outer entry `outer` (the ledger length denotes that ledger's end), or the
value obtained by dereferencing the outer end iterator in the end-cursor
constructor (undefined behaviour in the C++, modelled as a poison value
distinct from every real position). -/
inductive InnerIt where
  | pos (outer : Nat) (idx : Nat)
  | undef
deriving DecidableEq

/-- `OutfitGroup::iterator`: the owning group (by identity), the `isEnd`
flag, the outer iterator (an index into the outer list, with the list length
playing `outfits.end()`), and the inner iterator. -/
structure Cursor where
  groupId : Nat
  isEnd : Bool
  outer : Nat
  inner : InnerIt
deriving DecidableEq

/-- The `iterator(group, begin)` constructor with `begin = true`: first
bucket of the first outfit, or the end state when the group is empty. -/
def beginCursor (gid : Nat) (g : OuterMap) : Cursor :=
  if g = [] then ⟨gid, true, g.length, .undef⟩
  else ⟨gid, false, 0, .pos 0 0⟩

/-- The `iterator(group, begin)` constructor with `begin = false`: the outer
iterator is `outfits.end()` and the inner iterator is the poison value read
through it. -/
def endCursor (gid : Nat) (g : OuterMap) : Cursor :=
  ⟨gid, true, g.length, .undef⟩

/-- Ledger length of outer entry `i` (0 out of range). -/
def ledgerLen (g : OuterMap) (i : Nat) : Nat :=
  match g.get? i with
  | none => 0
  | some p => p.2.length

/-- `iterator::operator++`: advance the inner iterator; on reaching the inner
end advance the outer iterator, either entering the next ledger at its
beginning or setting `isEnd` (leaving the inner iterator at the previous
ledger's end, exactly as the C++ does). -/
def cursorNext (g : OuterMap) (c : Cursor) : Cursor :=
  match c.inner with
  | .undef => c
  | .pos oi j =>
    if j + 1 = ledgerLen g oi then
      if c.outer + 1 = g.length then ⟨c.groupId, true, c.outer + 1, .pos oi (j + 1)⟩
      else ⟨c.groupId, c.isEnd, c.outer + 1, .pos (c.outer + 1) 0⟩
    else ⟨c.groupId, c.isEnd, c.outer, .pos oi (j + 1)⟩

/-- `iterator::operator==`: compares only the outer and inner iterators. -/
def cursorEq (a b : Cursor) : Bool :=
  a.outer = b.outer ∧ a.inner = b.inner

/-- `iterator::operator!=`: two end cursors are never unequal; otherwise the
group identity and both iterators are compared. -/
def cursorNe (a b : Cursor) : Bool :=
  if a.isEnd ∧ b.isEnd then false
  else a.groupId ≠ b.groupId ∨ a.outer ≠ b.outer ∨ a.inner ≠ b.inner

/-- The public operations of claim C1, acting on a pair of groups; `first`
selects the subject group, and destination-taking operations use the other
group as destination. -/
inductive Op where
  | add (first : Bool) (o : Nat) (count wear : Int)
  | remove (first : Bool) (o : Nat) (count : Int) (mw : Bool) (withDest : Bool)
  | transfer (first : Bool) (o : Nat) (count : Int) (hasDest : Bool) (mw : Bool) (dw : Int)
  | age (first : Bool) (k : Int)
  | wipe (first : Bool)

/-- One public operation applied to a pair of groups. -/
def stepOp (s : OuterMap × OuterMap) : Op → OuterMap × OuterMap
  | .add true o c w => ((addOutfit s.1 o c w).2, s.2)
  | .add false o c w => (s.1, (addOutfit s.2 o c w).2)
  | .remove true o c mw false => ((removeOutfit s.1 o c mw).2.1, s.2)
  | .remove false o c mw false => (s.1, (removeOutfit s.2 o c mw).2.1)
  | .remove true o c mw true =>
    let r := removeOutfitTo s.1 o c mw s.2
    (r.2.1, r.2.2)
  | .remove false o c mw true =>
    let r := removeOutfitTo s.2 o c mw s.1
    (r.2.2, r.2.1)
  | .transfer true o c false mw dw => ((transferOutfits s.1 o c none mw dw).2.1, s.2)
  | .transfer false o c false mw dw => (s.1, (transferOutfits s.2 o c none mw dw).2.1)
  | .transfer true o c true mw dw =>
    let r := transferPair s.1 s.2 o c mw dw
    (r.2.1, r.2.2)
  | .transfer false o c true mw dw =>
    let r := transferPair s.2 s.1 o c mw dw
    (r.2.2, r.2.1)
  | .age true k => (incrementWear s.1 k, s.2)
  | .age false k => (s.1, incrementWear s.2 k)
  | .wipe true => (clearGroup s.1, s.2)
  | .wipe false => (s.1, clearGroup s.2)

/-- A sequence of public operations run from a starting pair of groups. -/
def runOps (s : OuterMap × OuterMap) (ops : List Op) : OuterMap × OuterMap :=
  ops.foldl stepOp s

/-- The argument restriction of the amended C1: direct `AddOutfit` and
`RemoveOutfit` calls carry a positive count (the other operations are
unrestricted). -/
def legalOp : Op → Bool
  | .add _ _ c _ => 0 < c
  | .remove _ _ c _ _ => 0 < c
  | _ => true

/-! ### Cost model lemmas -/

theorem truncQ_intCast (c : ℤ) : truncQ (c : ℚ) = c := by
  unfold truncQ
  split_ifs with h
  · exact Int.floor_intCast c
  · exact Int.ceil_intCast c

theorem truncQ_mono {q1 q2 : ℚ} (h : q1 ≤ q2) : truncQ q1 ≤ truncQ q2 := by
  unfold truncQ
  rcases le_or_lt 0 q1 with h1 | h1
  · rw [if_pos h1, if_pos (h1.trans h)]
    exact Int.floor_le_floor h
  · rcases le_or_lt 0 q2 with h2 | h2
    · rw [if_neg (not_le.mpr h1), if_pos h2]
      refine le_trans (Int.ceil_le.mpr ?_) (Int.floor_nonneg.mpr h2)
      exact_mod_cast h1.le
    · rw [if_neg (not_le.mpr h1), if_neg (not_le.mpr h2)]
      exact Int.ceil_le_ceil h

theorem costFunctionDefault_zero : costFunctionDefault 0 = 1 := rfl

theorem costFunctionDefault_le_one (w : Int) (hw : 0 ≤ w) : costFunctionDefault w ≤ 1 := by
  unfold costFunctionDefault costFunctionParams DEFAULT_MIN_PRICE DEFAULT_MAX_PRICE
    DEFAULT_DEPRECIATION_RATE
  split_ifs with h
  · exact le_refl 1
  · have hw1 : (1 : ℚ) ≤ (w : ℚ) := by
      have : (1 : ℤ) ≤ w := by omega
      exact_mod_cast this
    apply max_le
    · norm_num
    · nlinarith

theorem costFunctionDefault_antitone {w1 w2 : Int} (h0 : 0 ≤ w1) (h12 : w1 ≤ w2) :
    costFunctionDefault w2 ≤ costFunctionDefault w1 := by
  by_cases hw1 : w1 = 0
  · subst hw1
    rw [costFunctionDefault_zero]
    exact costFunctionDefault_le_one w2 h12
  · have hw2 : w2 ≠ 0 := by omega
    unfold costFunctionDefault costFunctionParams DEFAULT_MIN_PRICE DEFAULT_MAX_PRICE
      DEFAULT_DEPRECIATION_RATE
    rw [if_neg hw1, if_neg hw2]
    apply max_le_max le_rfl
    have : (w1 : ℚ) ≤ (w2 : ℚ) := by exact_mod_cast h12
    nlinarith

/-- C5, counterexample: for the base-cost-1000 item of the worked example,
`CostFunction(item, 126)` is 650, not the claimed 400 (the floor multiplier
0.40 is first reached at wear 251, not 126). -/
theorem costFunction_worked_example_counterexample :
    costFunction ⟨1000, "Engines", false⟩ 126 ≠ 400 := by
  have h : ("Engines" = "Ammunition") = False := by decide
  simp only [costFunction, costFunctionDefault, costFunctionParams, truncQ, h,
    DEFAULT_MIN_PRICE, DEFAULT_MAX_PRICE, DEFAULT_DEPRECIATION_RATE]
  push_cast
  norm_num

/-- C5 (amended): for an item with base cost 1000 under the default constants,
`CostFunction(item, 0) = 1000`, `CostFunction(item, 1) = 900`,
`CostFunction(item, 126) = 650`, and the 0.40 floor is reached at wear 251,
where `CostFunction(item, 251) = 400`. -/
theorem costFunction_worked_example :
    costFunction ⟨1000, "Engines", false⟩ 0 = 1000 ∧
    costFunction ⟨1000, "Engines", false⟩ 1 = 900 ∧
    costFunction ⟨1000, "Engines", false⟩ 126 = 650 ∧
    costFunction ⟨1000, "Engines", false⟩ 251 = 400 := by
  have h : ("Engines" = "Ammunition") = False := by decide
  refine ⟨?_, ?_, ?_, ?_⟩ <;>
  · simp only [costFunction, costFunctionDefault, costFunctionParams, truncQ, h,
      DEFAULT_MIN_PRICE, DEFAULT_MAX_PRICE, DEFAULT_DEPRECIATION_RATE]
    push_cast
    norm_num

/-- C6, counterexample: the monotonicity claim quantifies over every item,
but base cost is an arbitrary integer (spec §3); for a non-ageless,
non-ammunition item of base cost −1000 the depreciated value rises
(Cost(0) = −1000 < Cost(1) = −900, by truncation toward zero), so
`Cost(w1) ≥ Cost(w2)` fails at `w1 = 0 ≤ w2 = 1`. -/
theorem costFunction_monotone_counterexample :
    (⟨-1000, "Engines", false⟩ : Outfit).ageless = false ∧
    (⟨-1000, "Engines", false⟩ : Outfit).category ≠ "Ammunition" ∧
    (0 : ℤ) ≤ 0 ∧ (0 : ℤ) ≤ 1 ∧
    ¬ (costFunction ⟨-1000, "Engines", false⟩ 1 ≤
        costFunction ⟨-1000, "Engines", false⟩ 0) := by
  refine ⟨rfl, by decide, le_refl 0, by decide, ?_⟩
  have h : ("Engines" = "Ammunition") = False := by decide
  have hc : ⌈(-900 : ℚ)⌉ = (-900 : ℤ) := by
    rw [show ((-900 : ℚ)) = ((-900 : ℤ) : ℚ) by norm_num]
    exact Int.ceil_intCast _
  have hc2 : ⌈(-1000 : ℚ)⌉ = (-1000 : ℤ) := by
    rw [show ((-1000 : ℚ)) = ((-1000 : ℤ) : ℚ) by norm_num]
    exact Int.ceil_intCast _
  simp only [costFunction, costFunctionDefault, costFunctionParams, truncQ, h,
    DEFAULT_MIN_PRICE, DEFAULT_MAX_PRICE, DEFAULT_DEPRECIATION_RATE]
  push_cast
  norm_num [hc, hc2]

/-- C6 (amended): for every non-ageless item not in the "Ammunition"
category whose base cost is nonnegative, and wear levels 0 ≤ w1 ≤ w2,
`CostFunction(item, w1) ≥ CostFunction(item, w2)`, and
`CostFunction(item, 0)` equals the item's base cost. -/
theorem costFunction_monotone (o : Outfit) (w1 w2 : Int)
    (hag : o.ageless = false) (hcat : o.category ≠ "Ammunition") (hc : 0 ≤ o.cost)
    (h0 : 0 ≤ w1) (h12 : w1 ≤ w2) :
    costFunction o w2 ≤ costFunction o w1 ∧ costFunction o 0 = o.cost := by
  have hif : (o.ageless = true ∨ o.category = "Ammunition") = False := by
    simp [hag, hcat]
  constructor
  · unfold costFunction
    simp only [hif, if_false]
    exact truncQ_mono
      (mul_le_mul_of_nonneg_left (costFunctionDefault_antitone h0 h12) (by exact_mod_cast hc))
  · unfold costFunction
    simp only [hif, if_false, costFunctionDefault_zero, mul_one]
    exact truncQ_intCast o.cost

/-- Witness for C6's theorem at the concrete item (1000, "Engines",
non-ageless) and wear levels 2 ≤ 5. -/
theorem costFunction_monotone_witness :
    (⟨1000, "Engines", false⟩ : Outfit).ageless = false ∧
    (⟨1000, "Engines", false⟩ : Outfit).category ≠ "Ammunition" ∧
    (0 : ℤ) ≤ (⟨1000, "Engines", false⟩ : Outfit).cost ∧
    (0 : ℤ) ≤ 2 ∧ (2 : ℤ) ≤ 5 ∧
    (costFunction ⟨1000, "Engines", false⟩ 5 ≤ costFunction ⟨1000, "Engines", false⟩ 2 ∧
      costFunction ⟨1000, "Engines", false⟩ 0 = 1000) :=
  ⟨rfl, by decide, by decide, by decide, by decide,
    costFunction_monotone ⟨1000, "Engines", false⟩ 2 5 rfl (by decide) (by decide)
      (by decide) (by decide)⟩

/-- C7: an item flagged ageless, or in the "Ammunition" category, never
depreciates: `CostFunction(item, w)` equals the base cost for every
wear level w ≥ 0. -/
theorem costFunction_ageless_immune (o : Outfit) (w : Int)
    (h : o.ageless = true ∨ o.category = "Ammunition") (_hw : 0 ≤ w) :
    costFunction o w = o.cost := by
  unfold costFunction
  rw [if_pos h, costFunctionDefault_zero, mul_one]
  exact truncQ_intCast o.cost

/-- Witness for C7's theorem at the concrete ammunition item (500,
"Ammunition") and wear 7. -/
theorem costFunction_ageless_immune_witness :
    ((⟨500, "Ammunition", false⟩ : Outfit).ageless = true ∨
      (⟨500, "Ammunition", false⟩ : Outfit).category = "Ammunition") ∧
    (0 : ℤ) ≤ 7 ∧ costFunction ⟨500, "Ammunition", false⟩ 7 = 500 :=
  ⟨Or.inr rfl, by decide,
    costFunction_ageless_immune ⟨500, "Ammunition", false⟩ 7 (Or.inr rfl) (by decide)⟩

/-! ### AddOutfit return value (C10) -/

/-- C10: `AddOutfit(outfit, count, wear)` returns exactly its `count`
argument, unconditionally — for every inventory state, item, wear level
and integer count (zero and negative included, item and bucket present or
not), since the C++ ends in the single unconditional `return count;`. -/
theorem addOutfit_returns_count (g : OuterMap) (o : Nat) (c w : Int) :
    (addOutfit g o c w).1 = c := rfl

/-! ### Cursor comparison (C9) -/

/-- C9, counterexample: over the one-item inventory `[(0, [(0, 1)])]` the
cursor advanced from begin to exhaustion and the end-constructed cursor are
both exhausted, yet `operator==` compares them unequal (their inner
iterators differ: the advanced one holds the last ledger's end, the
end-constructed one holds the value read through the outer end iterator),
so equality does not hold exactly when both cursors are exhausted or
reference the same positions. -/
theorem cursor_compare_counterexample :
    (cursorNext [(0, [(0, 1)])] (beginCursor 0 [(0, [(0, 1)])])).isEnd = true ∧
    (endCursor 0 [(0, [(0, 1)])]).isEnd = true ∧
    cursorEq (cursorNext [(0, [(0, 1)])] (beginCursor 0 [(0, [(0, 1)])]))
      (endCursor 0 [(0, [(0, 1)])]) = false := by decide

/-- C9 (amended): for two cursors over the same inventory, the inequality
operator `!=` holds exactly when the claimed relation (both exhausted, or
same item-position and same wear-position) fails; the equality operator
`==`, however, compares only the item- and wear-positions, so two exhausted
cursors compare equal under `==` only when those positions also agree. -/
theorem cursor_compare (a b : Cursor) (hg : a.groupId = b.groupId) :
    (cursorNe a b = false ↔
      ((a.isEnd = true ∧ b.isEnd = true) ∨ (a.outer = b.outer ∧ a.inner = b.inner))) ∧
    (cursorEq a b = true ↔ (a.outer = b.outer ∧ a.inner = b.inner)) := by
  constructor
  · by_cases h : a.isEnd = true ∧ b.isEnd = true
    · simp [cursorNe, h]
    · simp only [cursorNe, if_neg h, hg]
      simp [h]
  · simp [cursorEq]

/-- Witness for C9's amended theorem: the begin cursor and the end cursor of
the one-item inventory share a group. -/
theorem cursor_compare_witness :
    (beginCursor 0 [(0, [(0, 1)])]).groupId = (endCursor 0 [(0, [(0, 1)])]).groupId ∧
    ((cursorNe (beginCursor 0 [(0, [(0, 1)])]) (endCursor 0 [(0, [(0, 1)])]) = false ↔
      (((beginCursor 0 [(0, [(0, 1)])]).isEnd = true ∧
          (endCursor 0 [(0, [(0, 1)])]).isEnd = true) ∨
        ((beginCursor 0 [(0, [(0, 1)])]).outer = (endCursor 0 [(0, [(0, 1)])]).outer ∧
          (beginCursor 0 [(0, [(0, 1)])]).inner = (endCursor 0 [(0, [(0, 1)])]).inner))) ∧
      (cursorEq (beginCursor 0 [(0, [(0, 1)])]) (endCursor 0 [(0, [(0, 1)])]) = true ↔
        ((beginCursor 0 [(0, [(0, 1)])]).outer = (endCursor 0 [(0, [(0, 1)])]).outer ∧
          (beginCursor 0 [(0, [(0, 1)])]).inner = (endCursor 0 [(0, [(0, 1)])]).inner))) :=
  ⟨rfl, cursor_compare (beginCursor 0 [(0, [(0, 1)])]) (endCursor 0 [(0, [(0, 1)])]) rfl⟩

/-! ### IncrementWear (C8) -/

theorem innerStore_append (L : InnerMap) (w q : Int) (h : ∀ b ∈ L, b.1 < w) :
    innerStore L w q = L ++ [(w, q)] := by
  induction L with
  | nil => rfl
  | cons b rest ih =>
    obtain ⟨w0, q0⟩ := b
    have hb := h (w0, q0) (List.mem_cons_self _ _)
    unfold innerStore
    rw [if_neg (by omega), if_neg (by omega)]
    rw [ih (fun c hc => h c (List.mem_cons_of_mem _ hc))]
    rfl

theorem rebuildShift_go (k : Int) (m acc : InnerMap)
    (hacc : ∀ b ∈ acc, ∀ c ∈ m, b.1 < c.1 + k) (hs : LedgerSorted m) :
    m.foldl (fun a b => innerStore a (b.1 + k) b.2) acc =
      acc ++ m.map (fun b => (b.1 + k, b.2)) := by
  induction m generalizing acc with
  | nil => simp
  | cons b rest ih =>
    obtain ⟨w, q⟩ := b
    have hsrest : LedgerSorted rest := (List.pairwise_cons.mp hs).2
    have hhead : ∀ d ∈ rest, w < d.1 := fun d hd => (List.pairwise_cons.mp hs).1 d hd
    simp only [List.foldl_cons, List.map_cons]
    rw [innerStore_append acc (w + k) q
      (fun c hc => hacc c hc (w, q) (List.mem_cons_self _ _))]
    rw [ih (acc ++ [(w + k, q)]) ?_ hsrest]
    · simp
    · intro c hc d hd
      rcases List.mem_append.mp hc with h1 | h1
      · exact hacc c h1 d (List.mem_cons_of_mem _ hd)
      · have : c = (w + k, q) := by simpa using h1
        subst this
        have := hhead d hd
        omega

theorem rebuildShift_eq (m : InnerMap) (k : Int) (hs : LedgerSorted m) :
    rebuildShift m k = m.map (fun b => (b.1 + k, b.2)) := by
  unfold rebuildShift
  rw [rebuildShift_go k m [] (by simp) hs]
  rfl

theorem findLedger_incrementWear (g : OuterMap) (k : Int) (o : Nat)
    (hs : ∀ p ∈ g, LedgerSorted p.2) :
    findLedger (incrementWear g k) o =
      (findLedger g o).map (fun m => m.map (fun b => (b.1 + k, b.2))) := by
  induction g with
  | nil => rfl
  | cons p rest ih =>
    obtain ⟨o0, m0⟩ := p
    simp only [incrementWear, List.map_cons] at *
    unfold findLedger
    by_cases h : o0 = o
    · rw [if_pos h, if_pos h]
      simp [rebuildShift_eq m0 k (hs (o0, m0) (List.mem_cons_self _ _))]
    · rw [if_neg h, if_neg h]
      have := ih (fun p hp => hs p (List.mem_cons_of_mem _ hp))
      simpa [incrementWear] using this

theorem ledgerTotal_shift (m : InnerMap) (k : Int) :
    ledgerTotal (m.map (fun b => (b.1 + k, b.2))) = ledgerTotal m := by
  unfold ledgerTotal
  rw [List.map_map]
  rfl

/-- C8: after `IncrementWear(k)`, every bucket previously at wear `w` with
quantity `q` sits at wear `w + k` with quantity `q`, no other buckets
exist (each ledger is exactly the key-shifted image of the old one), and
`GetTotalCount` is unchanged for every item. -/
theorem incrementWear_spec (g : OuterMap) (k : Int) (o : Nat)
    (hs : ∀ p ∈ g, LedgerSorted p.2) :
    findLedger (incrementWear g k) o =
      (findLedger g o).map (fun m => m.map (fun b => (b.1 + k, b.2))) ∧
    getTotalCount (incrementWear g k) o = getTotalCount g o := by
  refine ⟨findLedger_incrementWear g k o hs, ?_⟩
  unfold getTotalCount
  rw [findLedger_incrementWear g k o hs]
  cases findLedger g o with
  | none => rfl
  | some m => simp [ledgerTotal_shift]

/-- Witness for C8's theorem on a concrete two-item inventory shifted by 2. -/
theorem incrementWear_spec_witness :
    (∀ p ∈ [((0 : Nat), [((0 : Int), (2 : Int)), (3, 1)]), (2, [(5, 4)])], LedgerSorted p.2) ∧
    (findLedger (incrementWear [(0, [(0, 2), (3, 1)]), (2, [(5, 4)])] 2) 0 =
      (findLedger [(0, [(0, 2), (3, 1)]), (2, [(5, 4)])] 0).map
        (fun m => m.map (fun b => (b.1 + 2, b.2))) ∧
    getTotalCount (incrementWear [(0, [(0, 2), (3, 1)]), (2, [(5, 4)])] 2) 0 =
      getTotalCount [(0, [(0, 2), (3, 1)]), (2, [(5, 4)])] 0) :=
  ⟨by decide, incrementWear_spec [(0, [(0, 2), (3, 1)]), (2, [(5, 4)])] 2 0 (by decide)⟩

/-! ### Ledger bookkeeping lemmas -/

theorem qtyAt_cons (b : Int × Int) (l : InnerMap) (x : Int) :
    qtyAt (b :: l) x = (if b.1 = x then b.2 else 0) + qtyAt l x := by
  obtain ⟨w, q⟩ := b
  rfl

theorem ledgerTotal_nil : ledgerTotal [] = 0 := rfl

theorem ledgerTotal_cons (b : Int × Int) (l : InnerMap) :
    ledgerTotal (b :: l) = b.2 + ledgerTotal l := by
  simp [ledgerTotal]

theorem qtyAt_eq_zero (l : InnerMap) (x : Int) (h : ∀ b ∈ l, b.1 ≠ x) :
    qtyAt l x = 0 := by
  induction l with
  | nil => rfl
  | cons b rest ih =>
    rw [qtyAt_cons, if_neg (h b (List.mem_cons_self _ _)),
      ih (fun c hc => h c (List.mem_cons_of_mem _ hc))]
    ring

theorem exists_key_of_qtyAt_ne_zero (l : InnerMap) (x : Int) (h : qtyAt l x ≠ 0) :
    ∃ b ∈ l, b.1 = x := by
  by_contra hc
  push_neg at hc
  exact h (qtyAt_eq_zero l x hc)

theorem qtyAt_append (l1 l2 : InnerMap) (x : Int) :
    qtyAt (l1 ++ l2) x = qtyAt l1 x + qtyAt l2 x := by
  induction l1 with
  | nil => simp [qtyAt]
  | cons b rest ih =>
    rw [List.cons_append, qtyAt_cons, qtyAt_cons, ih]
    ring

theorem qtyAt_reverse (l : InnerMap) (x : Int) : qtyAt l.reverse x = qtyAt l x := by
  induction l with
  | nil => rfl
  | cons b rest ih =>
    rw [List.reverse_cons, qtyAt_append, qtyAt_cons, qtyAt_cons, ih]
    simp [qtyAt]
    ring

theorem ledgerTotal_append (l1 l2 : InnerMap) :
    ledgerTotal (l1 ++ l2) = ledgerTotal l1 + ledgerTotal l2 := by
  simp [ledgerTotal]

theorem ledgerTotal_reverse (l : InnerMap) : ledgerTotal l.reverse = ledgerTotal l := by
  induction l with
  | nil => rfl
  | cons b rest ih =>
    rw [List.reverse_cons, ledgerTotal_append, ih, ledgerTotal_cons, ledgerTotal_cons,
      ledgerTotal_nil]
    ring

theorem ledgerTotal_nonneg (l : InnerMap) (h : LedgerPos l) : 0 ≤ ledgerTotal l := by
  induction l with
  | nil => exact le_refl 0
  | cons b rest ih =>
    have hb := h b (List.mem_cons_self _ _)
    have hr := ih (fun c hc => h c (List.mem_cons_of_mem _ hc))
    rw [ledgerTotal_cons]
    omega

theorem ledgerPos_reverse (l : InnerMap) (h : LedgerPos l) : LedgerPos l.reverse :=
  fun b hb => h b (List.mem_reverse.mp hb)

theorem ledgerSorted_of_keys {R : Int → Int → Prop} {l l' : InnerMap}
    (hsub : List.Sublist (l'.map Prod.fst) (l.map Prod.fst))
    (h : l.Pairwise (fun a b => R a.1 b.1)) :
    l'.Pairwise (fun a b => R a.1 b.1) := by
  rw [← List.pairwise_map (f := Prod.fst)] at h ⊢
  exact h.sublist hsub

/-! ### Spec-side drain lemmas -/

theorem specDrainRemain_nonpos (n : Int) (l : InnerMap) (h : n ≤ 0) :
    specDrainRemain n l = l := by
  cases l with
  | nil => rfl
  | cons b rest =>
    obtain ⟨w, q⟩ := b
    unfold specDrainRemain
    rw [if_pos h]

theorem specDrainMoved_nonpos (n : Int) (l : InnerMap) (h : n ≤ 0) :
    specDrainMoved n l = [] := by
  cases l with
  | nil => rfl
  | cons b rest =>
    obtain ⟨w, q⟩ := b
    unfold specDrainMoved
    rw [if_pos h]

theorem specDrain_conserve (n : Int) (l : InnerMap) (x : Int) :
    qtyAt (specDrainRemain n l) x + qtyAt (specDrainMoved n l) x = qtyAt l x := by
  induction l generalizing n with
  | nil => rfl
  | cons b rest ih =>
    obtain ⟨w, q⟩ := b
    unfold specDrainRemain specDrainMoved
    by_cases h0 : n ≤ 0
    · rw [if_pos h0, if_pos h0]
      simp [qtyAt]
    · rw [if_neg h0, if_neg h0]
      by_cases h1 : q ≤ n
      · rw [if_pos h1, if_pos h1]
        have := ih (n - q)
        rw [qtyAt_cons, qtyAt_cons]
        simp only [] at this ⊢
        omega
      · rw [if_neg h1, if_neg h1]
        rw [qtyAt_cons, qtyAt_cons, qtyAt_cons]
        by_cases hx : w = x <;> simp [hx, qtyAt] <;> try ring

theorem specDrainRemain_pos (n : Int) (l : InnerMap) (h : LedgerPos l) :
    LedgerPos (specDrainRemain n l) := by
  induction l generalizing n with
  | nil => exact h
  | cons b rest ih =>
    obtain ⟨w, q⟩ := b
    have hq := h (w, q) (List.mem_cons_self _ _)
    have hrest : LedgerPos rest := fun c hc => h c (List.mem_cons_of_mem _ hc)
    unfold specDrainRemain
    by_cases h0 : n ≤ 0
    · rw [if_pos h0]; exact h
    · rw [if_neg h0]
      by_cases h1 : q ≤ n
      · rw [if_pos h1]; exact ih (n - q) hrest
      · rw [if_neg h1]
        intro c hc
        rcases List.mem_cons.mp hc with h2 | h2
        · rw [h2]; simp only []; omega
        · exact hrest c h2

theorem specDrainMoved_pos (n : Int) (l : InnerMap) (h : LedgerPos l) :
    LedgerPos (specDrainMoved n l) := by
  induction l generalizing n with
  | nil => exact h
  | cons b rest ih =>
    obtain ⟨w, q⟩ := b
    have hq := h (w, q) (List.mem_cons_self _ _)
    have hrest : LedgerPos rest := fun c hc => h c (List.mem_cons_of_mem _ hc)
    unfold specDrainMoved
    by_cases h0 : n ≤ 0
    · rw [if_pos h0]; intro c hc; cases hc
    · rw [if_neg h0]
      by_cases h1 : q ≤ n
      · rw [if_pos h1]
        intro c hc
        rcases List.mem_cons.mp hc with h2 | h2
        · rw [h2]; exact hq
        · exact ih (n - q) hrest c h2
      · rw [if_neg h1]
        intro c hc
        rcases List.mem_cons.mp hc with h2 | h2
        · rw [h2]; simp only []; omega
        · cases h2

theorem specDrainRemain_keys (n : Int) (l : InnerMap) :
    List.Sublist ((specDrainRemain n l).map Prod.fst) (l.map Prod.fst) := by
  induction l generalizing n with
  | nil => simp [specDrainRemain]
  | cons b rest ih =>
    obtain ⟨w, q⟩ := b
    unfold specDrainRemain
    by_cases h0 : n ≤ 0
    · rw [if_pos h0]
    · rw [if_neg h0]
      by_cases h1 : q ≤ n
      · rw [if_pos h1]
        exact (ih (n - q)).trans (List.sublist_cons_self _ _)
      · rw [if_neg h1]
        simp

theorem specDrainMoved_keys (n : Int) (l : InnerMap) :
    List.Sublist ((specDrainMoved n l).map Prod.fst) (l.map Prod.fst) := by
  induction l generalizing n with
  | nil => simp [specDrainMoved]
  | cons b rest ih =>
    obtain ⟨w, q⟩ := b
    unfold specDrainMoved
    by_cases h0 : n ≤ 0
    · rw [if_pos h0]; simp
    · rw [if_neg h0]
      by_cases h1 : q ≤ n
      · rw [if_pos h1]
        simpa using (ih (n - q)).cons₂ w
      · rw [if_neg h1]
        simp

theorem ledgerTotal_specDrainMoved (n : Int) (l : InnerMap) (hn : 0 ≤ n) (h : LedgerPos l) :
    ledgerTotal (specDrainMoved n l) = min n (ledgerTotal l) := by
  induction l generalizing n with
  | nil =>
    simp only [specDrainMoved, ledgerTotal, List.map_nil, List.sum_nil]
    omega
  | cons b rest ih =>
    obtain ⟨w, q⟩ := b
    have hq := h (w, q) (List.mem_cons_self _ _)
    have hrest : LedgerPos rest := fun c hc => h c (List.mem_cons_of_mem _ hc)
    have hT := ledgerTotal_nonneg rest hrest
    unfold specDrainMoved
    by_cases h0 : n ≤ 0
    · rw [if_pos h0]
      rw [ledgerTotal_nil, ledgerTotal_cons]
      omega
    · rw [if_neg h0]
      by_cases h1 : q ≤ n
      · rw [if_pos h1]
        have := ih (n - q) (by omega) hrest
        rw [ledgerTotal_cons, ledgerTotal_cons]
        omega
      · rw [if_neg h1]
        rw [ledgerTotal_cons, ledgerTotal_cons, ledgerTotal_nil]
        omega

theorem specDrainRemain_of_total_le (n : Int) (l : InnerMap) (h : LedgerPos l)
    (hn : ledgerTotal l ≤ n) : specDrainRemain n l = [] := by
  induction l generalizing n with
  | nil => rfl
  | cons b rest ih =>
    obtain ⟨w, q⟩ := b
    have hq := h (w, q) (List.mem_cons_self _ _)
    have hrest : LedgerPos rest := fun c hc => h c (List.mem_cons_of_mem _ hc)
    have hT := ledgerTotal_nonneg rest hrest
    rw [ledgerTotal_cons] at hn
    unfold specDrainRemain
    rw [if_neg (by omega), if_pos (by omega)]
    exact ih (n - q) hrest (by omega)

theorem ledgerTotal_specDrain (n : Int) (l : InnerMap) :
    ledgerTotal (specDrainRemain n l) + ledgerTotal (specDrainMoved n l) = ledgerTotal l := by
  induction l generalizing n with
  | nil => rfl
  | cons b rest ih =>
    obtain ⟨w, q⟩ := b
    unfold specDrainRemain specDrainMoved
    by_cases h0 : n ≤ 0
    · rw [if_pos h0, if_pos h0, ledgerTotal_nil]
      ring
    · rw [if_neg h0, if_neg h0]
      by_cases h1 : q ≤ n
      · rw [if_pos h1, if_pos h1, ledgerTotal_cons, ledgerTotal_cons]
        have := ih (n - q)
        omega
      · rw [if_neg h1, if_neg h1, ledgerTotal_cons, ledgerTotal_cons, ledgerTotal_cons,
          ledgerTotal_nil]
        ring

theorem drainLW_nonpos (n : Int) (l : InnerMap) (h : n ≤ 0) : drainLW n l = (0, l, []) := by
  cases l with
  | nil => rfl
  | cons b rest =>
    obtain ⟨w, q⟩ := b
    unfold drainLW
    rw [if_pos h]

/-- The least-worn-first loop computes exactly the spec-side drain: the
removed count is the capped request, the ledger keeps the spec survivors
and the deposited pairs are the spec-side removed units. -/
theorem drainLW_eq (n : Int) (l : InnerMap) (hn : 0 < n) (h : LedgerPos l) :
    drainLW n l = (min n (ledgerTotal l), specDrainRemain n l, specDrainMoved n l) := by
  induction l generalizing n with
  | nil =>
    simp only [drainLW, specDrainRemain, specDrainMoved, ledgerTotal_nil]
    rw [min_eq_right hn.le]
  | cons b rest ih =>
    obtain ⟨w, q⟩ := b
    have hq : 0 < q := h (w, q) (List.mem_cons_self _ _)
    have hrest : LedgerPos rest := fun c hc => h c (List.mem_cons_of_mem _ hc)
    have hT := ledgerTotal_nonneg rest hrest
    rw [ledgerTotal_cons]
    simp only [drainLW, specDrainRemain, specDrainMoved]
    rw [if_neg (by omega : ¬ n ≤ 0), if_neg (by omega : ¬ n ≤ 0), if_neg (by omega : ¬ n ≤ 0)]
    by_cases h1 : q ≤ n
    · rw [if_pos h1, if_pos h1]
      have ht : min q n = q := min_eq_left h1
      rw [ht, sub_self, if_pos rfl]
      by_cases h2 : n - q = 0
      · rw [h2, drainLW_nonpos 0 rest le_rfl, specDrainRemain_nonpos 0 rest le_rfl,
          specDrainMoved_nonpos 0 rest le_rfl]
        dsimp only
        simp only [Prod.mk.injEq, and_true, true_and]
        omega
      · rw [ih (n - q) (by omega) hrest]
        dsimp only
        simp only [Prod.mk.injEq, and_true, true_and]
        omega
    · rw [if_neg h1, if_neg h1]
      have ht : min q n = n := min_eq_right (by omega)
      rw [ht, sub_self, drainLW_nonpos 0 rest le_rfl, if_neg (by omega : ¬ q - n = 0)]
      dsimp only
      simp only [Prod.mk.injEq, and_true, true_and]
      omega

/-- The most-worn-first loop computes exactly the same spec-side drain over
its (reversed) input. -/
theorem drainMW_eq (n : Int) (l : InnerMap) (hn : 0 < n) (h : LedgerPos l) :
    drainMW n l = (min n (ledgerTotal l), specDrainRemain n l, specDrainMoved n l) := by
  induction l generalizing n with
  | nil =>
    simp only [drainMW, specDrainRemain, specDrainMoved, ledgerTotal_nil]
    rw [min_eq_right hn.le]
  | cons b rest ih =>
    obtain ⟨w, q⟩ := b
    have hq : 0 < q := h (w, q) (List.mem_cons_self _ _)
    have hrest : LedgerPos rest := fun c hc => h c (List.mem_cons_of_mem _ hc)
    have hT := ledgerTotal_nonneg rest hrest
    rw [ledgerTotal_cons]
    simp only [drainMW, specDrainRemain, specDrainMoved]
    rw [if_neg (by omega : ¬ n ≤ 0), if_neg (by omega : ¬ n ≤ 0)]
    by_cases h1 : q ≤ n
    · rw [if_pos h1, if_pos h1]
      have ht : min q n = q := min_eq_left h1
      rw [ht]
      by_cases h2 : n - q = 0
      · rw [if_neg (by omega : ¬ 0 < n - q), sub_self, if_pos rfl,
          specDrainRemain_nonpos (n - q) rest (by omega),
          specDrainMoved_nonpos (n - q) rest (by omega)]
        simp only [Prod.mk.injEq, and_true, true_and]
        omega
      · rw [if_pos (by omega : 0 < n - q), ih (n - q) (by omega) hrest, sub_self, if_pos rfl]
        dsimp only
        simp only [Prod.mk.injEq, and_true, true_and]
        omega
    · rw [if_neg h1, if_neg h1]
      have ht : min q n = n := min_eq_right (by omega)
      rw [ht, if_neg (by omega : ¬ 0 < n - n), if_neg (by omega : ¬ q - n = 0)]
      simp only [Prod.mk.injEq, and_true, true_and]
      omega

/-- Both removal loops, dispatched: removed count, surviving ledger and
deposited pairs in spec form. -/
theorem applyDrain_eq (mw : Bool) (c : Int) (m : InnerMap) (hc : 0 < c) (hp : LedgerPos m) :
    applyDrain mw c m = (min c (ledgerTotal m), specRemainOf mw c m, specMovedOf mw c m) := by
  cases mw with
  | false =>
    unfold applyDrain specRemainOf specMovedOf
    simp only [Bool.false_eq_true, if_false]
    exact drainLW_eq c m hc hp
  | true =>
    unfold applyDrain specRemainOf specMovedOf
    simp only [if_true]
    rw [drainMW_eq c m.reverse hc (ledgerPos_reverse m hp), ledgerTotal_reverse]

/-! ### RemoveOutfit characterization -/

theorem findLedger_mem (g : OuterMap) (o : Nat) (m : InnerMap)
    (h : findLedger g o = some m) : (o, m) ∈ g := by
  induction g with
  | nil => cases h
  | cons p rest ih =>
    obtain ⟨o0, m0⟩ := p
    unfold findLedger at h
    by_cases h0 : o0 = o
    · rw [if_pos h0] at h
      subst h0
      cases h
      exact List.mem_cons_self _ _
    · rw [if_neg h0] at h
      exact List.mem_cons_of_mem _ (ih h)

theorem findLedger_eq_none (g : OuterMap) (o : Nat) (h : ∀ p ∈ g, p.1 ≠ o) :
    findLedger g o = none := by
  induction g with
  | nil => rfl
  | cons p rest ih =>
    obtain ⟨o0, m0⟩ := p
    unfold findLedger
    rw [if_neg (h (o0, m0) (List.mem_cons_self _ _))]
    exact ih (fun c hc => h c (List.mem_cons_of_mem _ hc))

theorem removeOutfit_absent (g : OuterMap) (o : Nat) (c : Int) (mw : Bool)
    (h : findLedger g o = none) : removeOutfit g o c mw = (0, g, []) := by
  unfold removeOutfit
  induction g with
  | nil => rfl
  | cons p rest ih =>
    obtain ⟨o0, m0⟩ := p
    unfold findLedger at h
    unfold removeOutfitGo
    by_cases h0 : o0 = o
    · rw [if_pos h0] at h
      cases h
    · rw [if_neg h0] at h
      rw [if_neg (fun he => h0 he.symm), ih h]

theorem removeOutfit_found (g : OuterMap) (o : Nat) (c : Int) (mw : Bool) (m : InnerMap)
    (h : findLedger g o = some m) :
    removeOutfit g o c mw =
      ((applyDrain mw c m).1,
       replaceLedger g o (applyDrain mw c m).2.1,
       (applyDrain mw c m).2.2) := by
  unfold removeOutfit
  induction g with
  | nil => cases h
  | cons p rest ih =>
    obtain ⟨o0, m0⟩ := p
    unfold findLedger at h
    unfold removeOutfitGo replaceLedger
    by_cases h0 : o0 = o
    · rw [if_pos h0] at h
      cases h
      rw [if_pos h0.symm, if_pos h0.symm]
    · rw [if_neg h0] at h
      rw [if_neg (fun he => h0 he.symm), if_neg (fun he => h0 he.symm), ih h]

theorem replaceLedger_mem (g : OuterMap) (o : Nat) (m' : InnerMap) (p : Nat × InnerMap)
    (h : p ∈ replaceLedger g o m') : p ∈ g ∨ p = (o, m') := by
  induction g with
  | nil => cases h
  | cons b rest ih =>
    obtain ⟨o0, m0⟩ := b
    unfold replaceLedger at h
    by_cases h0 : o = o0
    · rw [if_pos h0] at h
      by_cases hm : m' = []
      · rw [if_pos hm] at h
        exact Or.inl (List.mem_cons_of_mem _ h)
      · rw [if_neg hm] at h
        rcases List.mem_cons.mp h with h1 | h1
        · exact Or.inr (by rw [h1, h0])
        · exact Or.inl (List.mem_cons_of_mem _ h1)
    · rw [if_neg h0] at h
      rcases List.mem_cons.mp h with h1 | h1
      · exact Or.inl (by rw [h1]; exact List.mem_cons_self _ _)
      · rcases ih h1 with h2 | h2
        · exact Or.inl (List.mem_cons_of_mem _ h2)
        · exact Or.inr h2

theorem findLedger_replaceLedger (g : OuterMap) (o : Nat) (m' : InnerMap)
    (hg : g.Pairwise (fun a b => a.1 < b.1)) (m : InnerMap) (hm : findLedger g o = some m) :
    findLedger (replaceLedger g o m') o = if m' = [] then none else some m' := by
  induction g with
  | nil => cases hm
  | cons b rest ih =>
    obtain ⟨o0, m0⟩ := b
    have hrest : rest.Pairwise (fun a b => a.1 < b.1) := (List.pairwise_cons.mp hg).2
    have hkeys := (List.pairwise_cons.mp hg).1
    unfold findLedger at hm
    unfold replaceLedger
    by_cases h0 : o = o0
    · rw [if_pos h0]
      by_cases hm' : m' = []
      · rw [if_pos hm', if_pos hm']
        refine findLedger_eq_none rest o (fun p hp => ?_)
        have := hkeys p hp
        omega
      · rw [if_neg hm', if_neg hm']
        unfold findLedger
        rw [if_pos h0.symm]
    · rw [if_neg h0, if_neg (fun he : o0 = o => h0 he.symm)] at *
      unfold findLedger
      rw [if_neg (fun he : o0 = o => h0 he.symm)]
      exact ih hrest hm

theorem specRemainOf_pos (mw : Bool) (c : Int) (m : InnerMap) (h : LedgerPos m) :
    LedgerPos (specRemainOf mw c m) := by
  unfold specRemainOf
  cases mw with
  | false =>
    simp only [Bool.false_eq_true, if_false]
    exact specDrainRemain_pos c m h
  | true =>
    simp only [if_true]
    exact ledgerPos_reverse _ (specDrainRemain_pos c m.reverse (ledgerPos_reverse m h))

theorem specMovedOf_pos (mw : Bool) (c : Int) (m : InnerMap) (h : LedgerPos m) :
    LedgerPos (specMovedOf mw c m) := by
  unfold specMovedOf
  cases mw with
  | false =>
    simp only [Bool.false_eq_true, if_false]
    exact specDrainMoved_pos c m h
  | true =>
    simp only [if_true]
    exact specDrainMoved_pos c m.reverse (ledgerPos_reverse m h)

theorem ledgerTotal_specRemainOf (mw : Bool) (c : Int) (m : InnerMap) :
    ledgerTotal (specRemainOf mw c m) + ledgerTotal (specMovedOf mw c m) = ledgerTotal m := by
  unfold specRemainOf specMovedOf
  cases mw with
  | false =>
    simp only [Bool.false_eq_true, if_false]
    exact ledgerTotal_specDrain c m
  | true =>
    simp only [if_true]
    rw [ledgerTotal_reverse]
    have := ledgerTotal_specDrain c m.reverse
    rw [ledgerTotal_reverse] at this
    exact this

theorem getTotalCount_eq (g : OuterMap) (o : Nat) :
    getTotalCount g o = ledgerTotal (ledgerOf g o) := by
  unfold getTotalCount ledgerOf
  cases findLedger g o with
  | none => rfl
  | some m => rfl

theorem ledgerTotal_specMovedOf (mw : Bool) (c : Int) (m : InnerMap) (hc : 0 ≤ c)
    (h : LedgerPos m) : ledgerTotal (specMovedOf mw c m) = min c (ledgerTotal m) := by
  unfold specMovedOf
  cases mw with
  | false =>
    simp only [Bool.false_eq_true, if_false]
    exact ledgerTotal_specDrainMoved c m hc h
  | true =>
    simp only [if_true]
    rw [ledgerTotal_specDrainMoved c m.reverse hc (ledgerPos_reverse m h), ledgerTotal_reverse]

/-- C3: for every well-formed inventory, item and positive requested count,
`RemoveOutfit` removes exactly `min(count, total available)` units —
returning that number, leaving that many fewer units of the item, and
keeping every surviving bucket quantity strictly positive (never
negative) — and returns 0 leaving the inventory unchanged when the item is
absent. -/
theorem removeOutfit_spec (g : OuterMap) (o : Nat) (c : Int) (mw : Bool)
    (hwf : GroupWF g) (hc : 0 < c) :
    (removeOutfit g o c mw).1 = min c (getTotalCount g o) ∧
    getTotalCount (removeOutfit g o c mw).2.1 o =
      getTotalCount g o - (removeOutfit g o c mw).1 ∧
    (∀ p ∈ (removeOutfit g o c mw).2.1, ∀ b ∈ p.2, 0 < b.2) ∧
    (findLedger g o = none → removeOutfit g o c mw = (0, g, [])) := by
  cases hfind : findLedger g o with
  | none =>
    have htot : getTotalCount g o = 0 := by
      unfold getTotalCount
      rw [hfind]
    rw [removeOutfit_absent g o c mw hfind]
    refine ⟨?_, ?_, ?_, fun _ => rfl⟩
    · dsimp only
      omega
    · dsimp only
      omega
    · intro p hp b hb
      exact (hwf.2 p hp).2 b hb
  | some m =>
    have hmem := findLedger_mem g o m hfind
    have hpos : LedgerPos m := (hwf.2 (o, m) hmem).2
    have htot : getTotalCount g o = ledgerTotal m := by
      unfold getTotalCount
      rw [hfind]
    rw [removeOutfit_found g o c mw m hfind, applyDrain_eq mw c m hc hpos]
    dsimp only
    have hmov := ledgerTotal_specMovedOf mw c m hc.le hpos
    have hcons := ledgerTotal_specRemainOf mw c m
    have hfl := findLedger_replaceLedger g o (specRemainOf mw c m) hwf.1.1 m hfind
    refine ⟨by omega, ?_, ?_, ?_⟩
    · rw [getTotalCount_eq]
      unfold ledgerOf
      rw [hfl]
      by_cases hnil : specRemainOf mw c m = []
      · rw [if_pos hnil]
        rw [hnil, ledgerTotal_nil] at hcons
        dsimp only [Option.getD]
        rw [ledgerTotal_nil]
        omega
      · rw [if_neg hnil]
        dsimp only [Option.getD]
        omega
    · intro p hp b hb
      rcases replaceLedger_mem g o (specRemainOf mw c m) p hp with h1 | h1
      · exact (hwf.2 p h1).2 b hb
      · rw [h1] at hb
        exact specRemainOf_pos mw c m hpos b hb
    · intro h
      exact Option.noConfusion h

/-- Witness for C3's theorem: removing 10 of an item of which 5 exist. -/
theorem removeOutfit_spec_witness :
    GroupWF [(0, [(0, 3), (5, 2)])] ∧ (0 : ℤ) < 10 ∧
    ((removeOutfit [(0, [(0, 3), (5, 2)])] 0 10 false).1 =
       min 10 (getTotalCount [(0, [(0, 3), (5, 2)])] 0) ∧
     getTotalCount (removeOutfit [(0, [(0, 3), (5, 2)])] 0 10 false).2.1 0 =
       getTotalCount [(0, [(0, 3), (5, 2)])] 0 -
         (removeOutfit [(0, [(0, 3), (5, 2)])] 0 10 false).1 ∧
     (∀ p ∈ (removeOutfit [(0, [(0, 3), (5, 2)])] 0 10 false).2.1, ∀ b ∈ p.2, 0 < b.2) ∧
     (findLedger [(0, [(0, 3), (5, 2)])] 0 = none →
       removeOutfit [(0, [(0, 3), (5, 2)])] 0 10 false = (0, [(0, [(0, 3), (5, 2)])], []))) :=
  ⟨by decide, by decide,
    removeOutfit_spec [(0, [(0, 3), (5, 2)])] 0 10 false (by decide) (by decide)⟩

/-- C4: `RemoveOutfit` with `mostWornFirst = true` drains buckets in strictly
descending wear order: on a well-formed inventory holding the item with
ledger `m`, the removed units are exactly the `count` most-worn units
(`specDrainMoved` over the reversed, i.e. most-worn-first, ledger), the
survivors are the spec-side remainder, and the returned count is capped at
the total. -/
theorem removeOutfit_mostWorn (g : OuterMap) (o : Nat) (c : Int) (m : InnerMap)
    (hwf : GroupWF g) (hc : 0 < c) (hfind : findLedger g o = some m) :
    removeOutfit g o c true =
      (min c (ledgerTotal m),
       replaceLedger g o (specDrainRemain c m.reverse).reverse,
       specDrainMoved c m.reverse) := by
  have hpos : LedgerPos m := (hwf.2 (o, m) (findLedger_mem g o m hfind)).2
  rw [removeOutfit_found g o c true m hfind, applyDrain_eq true c m hc hpos]
  rfl

/-- Witness for C4's theorem, at the spec's own example: buckets
{wear 0: 3, wear 5: 2} and count 4 give wear 5 erased entirely, wear 0
reduced to 1, and exactly the 4 most-worn units (2 at wear 5, then 2 at
wear 0) removed. -/
theorem removeOutfit_mostWorn_witness :
    GroupWF [(0, [(0, 3), (5, 2)])] ∧ (0 : ℤ) < 4 ∧
    findLedger [(0, [(0, 3), (5, 2)])] 0 = some [(0, 3), (5, 2)] ∧
    removeOutfit [(0, [(0, 3), (5, 2)])] 0 4 true = (4, [(0, [(0, 1)])], [(5, 2), (0, 2)]) :=
  ⟨by decide, by decide, rfl,
    (removeOutfit_mostWorn [(0, [(0, 3), (5, 2)])] 0 4 [(0, 3), (5, 2)] (by decide) (by decide)
      rfl).trans (by decide)⟩

/-! ### Well-formedness preservation -/

theorem groupWF_nil : GroupWF [] :=
  ⟨⟨List.Pairwise.nil, fun p hp => absurd hp (List.not_mem_nil p)⟩,
    fun p hp => absurd hp (List.not_mem_nil p)⟩

theorem innerAdd_keys_subset (m : InnerMap) (w c : Int) :
    ∀ b ∈ innerAdd m w c, b.1 = w ∨ b.1 ∈ m.map Prod.fst := by
  induction m with
  | nil =>
    intro b hb
    rcases List.mem_singleton.mp hb with rfl
    exact Or.inl rfl
  | cons p rest ih =>
    obtain ⟨w0, q0⟩ := p
    intro b hb
    unfold innerAdd at hb
    by_cases h1 : w < w0
    · rw [if_pos h1] at hb
      rcases List.mem_cons.mp hb with h2 | h2
      · rw [h2]; exact Or.inl rfl
      · rcases List.mem_cons.mp h2 with h3 | h3
        · rw [h3]
          exact Or.inr (by simp)
        · exact Or.inr (by
            simp only [List.map_cons, List.mem_cons]
            exact Or.inr (List.mem_map_of_mem Prod.fst h3))
    · rw [if_neg h1] at hb
      by_cases h2 : w = w0
      · rw [if_pos h2] at hb
        by_cases h3 : q0 + c = 0
        · rw [if_pos h3] at hb
          exact Or.inr (by
            simp only [List.map_cons, List.mem_cons]
            exact Or.inr (List.mem_map_of_mem Prod.fst hb))
        · rw [if_neg h3] at hb
          rcases List.mem_cons.mp hb with h4 | h4
          · rw [h4]; simp
          · exact Or.inr (by
              simp only [List.map_cons, List.mem_cons]
              exact Or.inr (List.mem_map_of_mem Prod.fst h4))
      · rw [if_neg h2] at hb
        rcases List.mem_cons.mp hb with h4 | h4
        · rw [h4]; simp
        · rcases ih b h4 with h5 | h5
          · exact Or.inl h5
          · exact Or.inr (by
              simp only [List.map_cons, List.mem_cons]
              exact Or.inr h5)

theorem innerAdd_sorted (m : InnerMap) (w c : Int) (hs : LedgerSorted m) :
    LedgerSorted (innerAdd m w c) := by
  induction m with
  | nil => exact List.pairwise_singleton _ _
  | cons p rest ih =>
    obtain ⟨w0, q0⟩ := p
    have hhead : ∀ b ∈ rest, w0 < b.1 := fun b hb => (List.pairwise_cons.mp hs).1 b hb
    have hrest : LedgerSorted rest := (List.pairwise_cons.mp hs).2
    unfold innerAdd
    by_cases h1 : w < w0
    · rw [if_pos h1]
      refine List.pairwise_cons.mpr ⟨?_, hs⟩
      intro b hb
      rcases List.mem_cons.mp hb with h2 | h2
      · rw [h2]; exact h1
      · have := hhead b h2; omega
    · rw [if_neg h1]
      by_cases h2 : w = w0
      · rw [if_pos h2]
        by_cases h3 : q0 + c = 0
        · rw [if_pos h3]; exact hrest
        · rw [if_neg h3]
          exact List.pairwise_cons.mpr ⟨hhead, hrest⟩
      · rw [if_neg h2]
        refine List.pairwise_cons.mpr ⟨?_, ih hrest⟩
        intro b hb
        rcases innerAdd_keys_subset rest w c b hb with h4 | h4
        · rw [h4]; omega
        · rw [List.mem_map] at h4
          obtain ⟨a, ha, hab⟩ := h4
          rw [← hab]
          exact hhead a ha

theorem innerAdd_pos (m : InnerMap) (w c : Int) (hp : LedgerPos m) (hc : 0 < c) :
    LedgerPos (innerAdd m w c) := by
  induction m with
  | nil =>
    intro b hb
    rcases List.mem_singleton.mp hb with rfl
    exact hc
  | cons p rest ih =>
    obtain ⟨w0, q0⟩ := p
    have hq0 : 0 < q0 := hp (w0, q0) (List.mem_cons_self _ _)
    have hrest : LedgerPos rest := fun b hb => hp b (List.mem_cons_of_mem _ hb)
    unfold innerAdd
    by_cases h1 : w < w0
    · rw [if_pos h1]
      intro b hb
      rcases List.mem_cons.mp hb with h2 | h2
      · rw [h2]; exact hc
      · exact hp b h2
    · rw [if_neg h1]
      by_cases h2 : w = w0
      · rw [if_pos h2]
        by_cases h3 : q0 + c = 0
        · rw [if_pos h3]; exact hrest
        · rw [if_neg h3]
          intro b hb
          rcases List.mem_cons.mp hb with h4 | h4
          · rw [h4]; dsimp only; omega
          · exact hrest b h4
      · rw [if_neg h2]
        intro b hb
        rcases List.mem_cons.mp hb with h4 | h4
        · rw [h4]; exact hq0
        · exact ih hrest b h4

theorem addOutfitMap_keys_subset (g : OuterMap) (o : Nat) (c w : Int) :
    ∀ p ∈ addOutfitMap g o c w, p.1 = o ∨ p.1 ∈ g.map Prod.fst := by
  induction g with
  | nil =>
    intro p hp
    rcases List.mem_singleton.mp hp with rfl
    exact Or.inl rfl
  | cons q rest ih =>
    obtain ⟨o0, m0⟩ := q
    intro p hp
    unfold addOutfitMap at hp
    by_cases h1 : o < o0
    · rw [if_pos h1] at hp
      rcases List.mem_cons.mp hp with h2 | h2
      · rw [h2]; exact Or.inl rfl
      · rcases List.mem_cons.mp h2 with h3 | h3
        · rw [h3]; simp
        · exact Or.inr (by
            simp only [List.map_cons, List.mem_cons]
            exact Or.inr (List.mem_map_of_mem Prod.fst h3))
    · rw [if_neg h1] at hp
      by_cases h2 : o = o0
      · rw [if_pos h2] at hp
        by_cases h3 : innerAdd m0 w c = []
        · rw [if_pos h3] at hp
          exact Or.inr (by
            simp only [List.map_cons, List.mem_cons]
            exact Or.inr (List.mem_map_of_mem Prod.fst hp))
        · rw [if_neg h3] at hp
          rcases List.mem_cons.mp hp with h4 | h4
          · rw [h4]; simp
          · exact Or.inr (by
              simp only [List.map_cons, List.mem_cons]
              exact Or.inr (List.mem_map_of_mem Prod.fst h4))
      · rw [if_neg h2] at hp
        rcases List.mem_cons.mp hp with h4 | h4
        · rw [h4]; simp
        · rcases ih p h4 with h5 | h5
          · exact Or.inl h5
          · exact Or.inr (by
              simp only [List.map_cons, List.mem_cons]
              exact Or.inr h5)

theorem specRemainOf_sorted (mw : Bool) (c : Int) (m : InnerMap) (hs : LedgerSorted m) :
    LedgerSorted (specRemainOf mw c m) := by
  unfold specRemainOf
  cases mw with
  | false =>
    simp only [Bool.false_eq_true, if_false]
    exact ledgerSorted_of_keys (specDrainRemain_keys c m) hs
  | true =>
    simp only [if_true]
    rw [LedgerSorted, List.pairwise_reverse]
    have hrev : m.reverse.Pairwise (fun a b : Int × Int => b.1 < a.1) :=
      List.pairwise_reverse.mpr hs
    exact @ledgerSorted_of_keys (fun x y => y < x) _ _ (specDrainRemain_keys c m.reverse) hrev

theorem movedLedger_sorted (mw : Bool) (c : Int) (m : InnerMap) (hs : LedgerSorted m) :
    LedgerSorted (movedLedger mw c m) := by
  unfold movedLedger
  cases mw with
  | false =>
    simp only [Bool.false_eq_true, if_false]
    exact ledgerSorted_of_keys (specDrainMoved_keys c m) hs
  | true =>
    simp only [if_true]
    rw [LedgerSorted, List.pairwise_reverse]
    have hrev : m.reverse.Pairwise (fun a b : Int × Int => b.1 < a.1) :=
      List.pairwise_reverse.mpr hs
    exact @ledgerSorted_of_keys (fun x y => y < x) _ _ (specDrainMoved_keys c m.reverse) hrev

theorem replaceLedger_mem2 (g : OuterMap) (o : Nat) (m' : InnerMap) (p : Nat × InnerMap)
    (h : p ∈ replaceLedger g o m') : p ∈ g ∨ (p = (o, m') ∧ o ∈ g.map Prod.fst) := by
  induction g with
  | nil => cases h
  | cons b rest ih =>
    obtain ⟨o0, m0⟩ := b
    unfold replaceLedger at h
    by_cases h0 : o = o0
    · rw [if_pos h0] at h
      by_cases hm : m' = []
      · rw [if_pos hm] at h
        exact Or.inl (List.mem_cons_of_mem _ h)
      · rw [if_neg hm] at h
        rcases List.mem_cons.mp h with h1 | h1
        · exact Or.inr ⟨by rw [h1, h0], by rw [h0]; simp⟩
        · exact Or.inl (List.mem_cons_of_mem _ h1)
    · rw [if_neg h0] at h
      rcases List.mem_cons.mp h with h1 | h1
      · exact Or.inl (by rw [h1]; exact List.mem_cons_self _ _)
      · rcases ih h1 with h2 | h2
        · exact Or.inl (List.mem_cons_of_mem _ h2)
        · exact Or.inr ⟨h2.1, by
            simp only [List.map_cons, List.mem_cons]
            exact Or.inr h2.2⟩

theorem replaceLedger_WF (g : OuterMap) (o : Nat) (m' : InnerMap) (hwf : GroupWF g)
    (hs : LedgerSorted m') (hp : LedgerPos m') : GroupWF (replaceLedger g o m') := by
  induction g with
  | nil => exact groupWF_nil
  | cons b rest ih =>
    obtain ⟨o0, m0⟩ := b
    obtain ⟨⟨houter, hleds⟩, htidy⟩ := hwf
    have hhead : ∀ p ∈ rest, o0 < p.1 := fun p hpmem => (List.pairwise_cons.mp houter).1 p hpmem
    have hrestWF : GroupWF rest :=
      ⟨⟨(List.pairwise_cons.mp houter).2, fun p hpmem => hleds p (List.mem_cons_of_mem _ hpmem)⟩,
        fun p hpmem => htidy p (List.mem_cons_of_mem _ hpmem)⟩
    unfold replaceLedger
    by_cases h0 : o = o0
    · rw [if_pos h0]
      by_cases hm : m' = []
      · rw [if_pos hm]
        exact hrestWF
      · rw [if_neg hm]
        refine ⟨⟨List.pairwise_cons.mpr ⟨hhead, hrestWF.1.1⟩, ?_⟩, ?_⟩
        · intro p hpmem
          rcases List.mem_cons.mp hpmem with h1 | h1
          · rw [h1]; exact hs
          · exact hrestWF.1.2 p h1
        · intro p hpmem
          rcases List.mem_cons.mp hpmem with h1 | h1
          · rw [h1]; exact ⟨hm, hp⟩
          · exact hrestWF.2 p h1
    · rw [if_neg h0]
      have ihr := ih hrestWF
      refine ⟨⟨List.pairwise_cons.mpr ⟨?_, ihr.1.1⟩, ?_⟩, ?_⟩
      · intro p hpmem
        rcases replaceLedger_mem2 rest o m' p hpmem with h1 | h1
        · exact hhead p h1
        · rw [h1.1]
          rw [List.mem_map] at h1
          obtain ⟨a, ha, hao⟩ := h1.2
          have := hhead a ha
          dsimp only
          omega
      · intro p hpmem
        rcases List.mem_cons.mp hpmem with h1 | h1
        · rw [h1]; exact hleds (o0, m0) (List.mem_cons_self _ _)
        · exact ihr.1.2 p h1
      · intro p hpmem
        rcases List.mem_cons.mp hpmem with h1 | h1
        · rw [h1]; exact htidy (o0, m0) (List.mem_cons_self _ _)
        · exact ihr.2 p h1

theorem addOutfitMap_WF (g : OuterMap) (o : Nat) (c w : Int) (hwf : GroupWF g) (hc : 0 < c) :
    GroupWF (addOutfitMap g o c w) := by
  induction g with
  | nil =>
    refine ⟨⟨List.pairwise_singleton _ _, ?_⟩, ?_⟩
    · intro p hpmem
      rcases List.mem_singleton.mp hpmem with rfl
      exact List.pairwise_singleton _ _
    · intro p hpmem
      rcases List.mem_singleton.mp hpmem with rfl
      refine ⟨by simp, ?_⟩
      intro b hb
      rcases List.mem_singleton.mp hb with rfl
      exact hc
  | cons q rest ih =>
    obtain ⟨o0, m0⟩ := q
    obtain ⟨⟨houter, hleds⟩, htidy⟩ := hwf
    have hhead : ∀ p ∈ rest, o0 < p.1 := fun p hpmem => (List.pairwise_cons.mp houter).1 p hpmem
    have hrestWF : GroupWF rest :=
      ⟨⟨(List.pairwise_cons.mp houter).2, fun p hpmem => hleds p (List.mem_cons_of_mem _ hpmem)⟩,
        fun p hpmem => htidy p (List.mem_cons_of_mem _ hpmem)⟩
    unfold addOutfitMap
    by_cases h1 : o < o0
    · rw [if_pos h1]
      refine ⟨⟨?_, ?_⟩, ?_⟩
      · refine List.pairwise_cons.mpr ⟨?_, houter⟩
        intro p hpmem
        rcases List.mem_cons.mp hpmem with h2 | h2
        · rw [h2]; exact h1
        · have := hhead p h2; omega
      · intro p hpmem
        rcases List.mem_cons.mp hpmem with h2 | h2
        · rw [h2]; exact List.pairwise_singleton _ _
        · exact hleds p h2
      · intro p hpmem
        rcases List.mem_cons.mp hpmem with h2 | h2
        · rw [h2]
          refine ⟨by simp, ?_⟩
          intro b hb
          rcases List.mem_singleton.mp hb with rfl
          exact hc
        · exact htidy p h2
    · rw [if_neg h1]
      by_cases h2 : o = o0
      · rw [if_pos h2]
        by_cases h3 : innerAdd m0 w c = []
        · rw [if_pos h3]
          exact hrestWF
        · rw [if_neg h3]
          have hm0s : LedgerSorted m0 := hleds (o0, m0) (List.mem_cons_self _ _)
          have hm0p : LedgerPos m0 := (htidy (o0, m0) (List.mem_cons_self _ _)).2
          refine ⟨⟨List.pairwise_cons.mpr ⟨hhead, hrestWF.1.1⟩, ?_⟩, ?_⟩
          · intro p hpmem
            rcases List.mem_cons.mp hpmem with h4 | h4
            · rw [h4]; exact innerAdd_sorted m0 w c hm0s
            · exact hrestWF.1.2 p h4
          · intro p hpmem
            rcases List.mem_cons.mp hpmem with h4 | h4
            · rw [h4]; exact ⟨h3, innerAdd_pos m0 w c hm0p hc⟩
            · exact hrestWF.2 p h4
      · rw [if_neg h2]
        have ihr := ih hrestWF
        refine ⟨⟨List.pairwise_cons.mpr ⟨?_, ihr.1.1⟩, ?_⟩, ?_⟩
        · intro p hpmem
          rcases addOutfitMap_keys_subset rest o c w p hpmem with h4 | h4
          · rw [h4]; omega
          · rw [List.mem_map] at h4
            obtain ⟨a, ha, hao⟩ := h4
            rw [← hao]
            exact hhead a ha
        · intro p hpmem
          rcases List.mem_cons.mp hpmem with h4 | h4
          · rw [h4]; exact hleds (o0, m0) (List.mem_cons_self _ _)
          · exact ihr.1.2 p h4
        · intro p hpmem
          rcases List.mem_cons.mp hpmem with h4 | h4
          · rw [h4]; exact htidy (o0, m0) (List.mem_cons_self _ _)
          · exact ihr.2 p h4

theorem removeOutfit_WF (g : OuterMap) (o : Nat) (c : Int) (mw : Bool)
    (hwf : GroupWF g) (hc : 0 < c) : GroupWF (removeOutfit g o c mw).2.1 := by
  cases hfind : findLedger g o with
  | none =>
    rw [removeOutfit_absent g o c mw hfind]
    exact hwf
  | some m =>
    have hmem := findLedger_mem g o m hfind
    have hpos : LedgerPos m := (hwf.2 (o, m) hmem).2
    have hsort : LedgerSorted m := hwf.1.2 (o, m) hmem
    rw [removeOutfit_found g o c mw m hfind, applyDrain_eq mw c m hc hpos]
    exact replaceLedger_WF g o (specRemainOf mw c m) hwf
      (specRemainOf_sorted mw c m hsort) (specRemainOf_pos mw c m hpos)

theorem depositMoved_WF (dst : OuterMap) (o : Nat) (mv : InnerMap)
    (hwf : GroupWF dst) (hmv : LedgerPos mv) : GroupWF (depositMoved dst o mv) := by
  induction mv generalizing dst with
  | nil => exact hwf
  | cons b rest ih =>
    unfold depositMoved
    rw [List.foldl_cons]
    exact ih ((addOutfit dst o b.2 b.1).2)
      (addOutfitMap_WF dst o b.2 b.1 hwf (hmv b (List.mem_cons_self _ _)))
      (fun x hx => hmv x (List.mem_cons_of_mem _ hx))

theorem removeOutfitTo_WF (g : OuterMap) (o : Nat) (c : Int) (mw : Bool) (dst : OuterMap)
    (hg : GroupWF g) (hd : GroupWF dst) (hc : 0 < c) :
    GroupWF (removeOutfitTo g o c mw dst).2.1 ∧ GroupWF (removeOutfitTo g o c mw dst).2.2 := by
  unfold removeOutfitTo
  refine ⟨removeOutfit_WF g o c mw hg hc, ?_⟩
  cases hfind : findLedger g o with
  | none =>
    rw [removeOutfit_absent g o c mw hfind]
    exact hd
  | some m =>
    have hmem := findLedger_mem g o m hfind
    have hpos : LedgerPos m := (hg.2 (o, m) hmem).2
    rw [removeOutfit_found g o c mw m hfind, applyDrain_eq mw c m hc hpos]
    exact depositMoved_WF dst o (specMovedOf mw c m) hd (specMovedOf_pos mw c m hpos)

theorem transferOutfits_none_WF (src : OuterMap) (o : Nat) (count : Int) (mw : Bool) (dw : Int)
    (h : GroupWF src) : GroupWF (transferOutfits src o count none mw dw).2.1 := by
  unfold transferOutfits
  by_cases h0 : count = 0
  · rw [if_pos h0]
    exact h
  · rw [if_neg h0]
    dsimp only
    by_cases h1 : 0 < count
    · rw [if_pos h1]
      exact removeOutfit_WF src o count mw h h1
    · rw [if_neg h1]
      exact addOutfitMap_WF src o (-count) dw h (by omega)

theorem transferPair_WF (a b : OuterMap) (o : Nat) (count : Int) (mw : Bool) (dw : Int)
    (ha : GroupWF a) (hb : GroupWF b) :
    GroupWF (transferPair a b o count mw dw).2.1 ∧
      GroupWF (transferPair a b o count mw dw).2.2 := by
  unfold transferPair transferOutfits
  by_cases h0 : count = 0
  · rw [if_pos h0]
    exact ⟨ha, hb⟩
  · rw [if_neg h0]
    dsimp only
    by_cases h1 : count < 0
    · rw [if_pos h1]
      have h2 := removeOutfitTo_WF b o (-count) mw a hb ha (by omega)
      exact ⟨h2.2, h2.1⟩
    · rw [if_neg h1]
      exact removeOutfitTo_WF a o count mw b ha hb (by omega)

theorem incrementWear_WF (g : OuterMap) (k : Int) (h : GroupWF g) :
    GroupWF (incrementWear g k) := by
  obtain ⟨⟨houter, hleds⟩, htidy⟩ := h
  unfold incrementWear
  refine ⟨⟨?_, ?_⟩, ?_⟩
  · rw [List.pairwise_map]
    exact houter
  · intro p hp
    rw [List.mem_map] at hp
    obtain ⟨q, hq, rfl⟩ := hp
    dsimp only
    rw [rebuildShift_eq _ _ (hleds q hq)]
    rw [LedgerSorted, List.pairwise_map]
    exact (hleds q hq).imp (fun h => by omega)
  · intro p hp
    rw [List.mem_map] at hp
    obtain ⟨q, hq, rfl⟩ := hp
    dsimp only
    rw [rebuildShift_eq _ _ (hleds q hq)]
    refine ⟨?_, ?_⟩
    · simp only [ne_eq, List.map_eq_nil_iff]
      exact (htidy q hq).1
    · intro b hb
      rw [List.mem_map] at hb
      obtain ⟨r, hr, rfl⟩ := hb
      exact (htidy q hq).2 r hr

theorem stepOp_WF (s : OuterMap × OuterMap) (op : Op) (h1 : GroupWF s.1) (h2 : GroupWF s.2)
    (hl : legalOp op = true) : GroupWF (stepOp s op).1 ∧ GroupWF (stepOp s op).2 := by
  cases op with
  | add first o c w =>
    have hc : 0 < c := by simpa [legalOp] using hl
    cases first
    · exact ⟨h1, addOutfitMap_WF s.2 o c w h2 hc⟩
    · exact ⟨addOutfitMap_WF s.1 o c w h1 hc, h2⟩
  | remove first o c mw withDest =>
    have hc : 0 < c := by simpa [legalOp] using hl
    cases first <;> cases withDest
    · exact ⟨h1, removeOutfit_WF s.2 o c mw h2 hc⟩
    · have h := removeOutfitTo_WF s.2 o c mw s.1 h2 h1 hc
      exact ⟨h.2, h.1⟩
    · exact ⟨removeOutfit_WF s.1 o c mw h1 hc, h2⟩
    · exact removeOutfitTo_WF s.1 o c mw s.2 h1 h2 hc
  | transfer first o c hasDest mw dw =>
    cases first <;> cases hasDest
    · exact ⟨h1, transferOutfits_none_WF s.2 o c mw dw h2⟩
    · have h := transferPair_WF s.2 s.1 o c mw dw h2 h1
      exact ⟨h.2, h.1⟩
    · exact ⟨transferOutfits_none_WF s.1 o c mw dw h1, h2⟩
    · exact transferPair_WF s.1 s.2 o c mw dw h1 h2
  | age first k =>
    cases first
    · exact ⟨h1, incrementWear_WF s.2 k h2⟩
    · exact ⟨incrementWear_WF s.1 k h1, h2⟩
  | wipe first =>
    cases first
    · exact ⟨h1, groupWF_nil⟩
    · exact ⟨groupWF_nil, h2⟩

theorem runOps_WF (ops : List Op) (s : OuterMap × OuterMap) (h1 : GroupWF s.1)
    (h2 : GroupWF s.2) (hl : ∀ op ∈ ops, legalOp op = true) :
    GroupWF (runOps s ops).1 ∧ GroupWF (runOps s ops).2 := by
  induction ops generalizing s with
  | nil => exact ⟨h1, h2⟩
  | cons op rest ih =>
    unfold runOps
    rw [List.foldl_cons]
    have h := stepOp_WF s op h1 h2 (hl op (List.mem_cons_self _ _))
    exact ih (stepOp s op) h.1 h.2 (fun x hx => hl x (List.mem_cons_of_mem _ hx))

/-- C1, counterexample: `AddOutfit(item, 0, 0)` on an empty inventory is a
public-operation sequence that creates the ledger {wear 0 ↦ quantity 0} — a
zero-quantity entry — because the absent-outfit branch of `AddOutfit`
stores `count` unconditionally; the no-empty-buckets invariant fails on the
reachable state. -/
theorem tidy_counterexample : ¬ Tidy (runOps ([], []) [Op.add true 0 0 0]).1 := by decide

/-- C1 (amended): starting from empty inventories, after any sequence of the
public operations (AddOutfit, RemoveOutfit, TransferOutfits, IncrementWear,
Clear) in which every direct AddOutfit and RemoveOutfit call carries a
positive count (TransferOutfits, IncrementWear and Clear unrestricted), no
wear ledger contains a zero-quantity entry, every quantity is strictly
positive, and no item maps to an empty wear ledger, in both inventories. -/
theorem tidy_invariant (ops : List Op) (hl : ∀ op ∈ ops, legalOp op = true) :
    Tidy (runOps ([], []) ops).1 ∧ Tidy (runOps ([], []) ops).2 := by
  have h := runOps_WF ops ([], []) groupWF_nil groupWF_nil hl
  exact ⟨h.1.2, h.2.2⟩

/-- Witness for C1's amended theorem on a concrete operation sequence: add
3 units, transfer 2 to the second inventory most-worn-first, remove 1 from
the second, age the first, then add again. -/
theorem tidy_invariant_witness :
    (∀ op ∈ [Op.add true 0 3 0, Op.transfer true 0 2 true true 0,
        Op.remove false 0 1 false false, Op.age true 1, Op.add true 1 2 5],
      legalOp op = true) ∧
    (Tidy (runOps ([], []) [Op.add true 0 3 0, Op.transfer true 0 2 true true 0,
        Op.remove false 0 1 false false, Op.age true 1, Op.add true 1 2 5]).1 ∧
     Tidy (runOps ([], []) [Op.add true 0 3 0, Op.transfer true 0 2 true true 0,
        Op.remove false 0 1 false false, Op.age true 1, Op.add true 1 2 5]).2) :=
  ⟨by decide,
    tidy_invariant [Op.add true 0 3 0, Op.transfer true 0 2 true true 0,
      Op.remove false 0 1 false false, Op.age true 1, Op.add true 1 2 5] (by decide)⟩

/-! ### Pointwise accounting for transfers (C2) -/

theorem qtyAt_pair_cons (w q x : Int) (l : InnerMap) :
    qtyAt ((w, q) :: l) x = (if w = x then q else 0) + qtyAt l x := rfl

theorem qtyAt_innerAdd (m : InnerMap) (w c x : Int) :
    qtyAt (innerAdd m w c) x = qtyAt m x + (if w = x then c else 0) := by
  induction m with
  | nil => simp [innerAdd, qtyAt]
  | cons p rest ih =>
    obtain ⟨w0, q0⟩ := p
    unfold innerAdd
    by_cases h1 : w < w0
    · rw [if_pos h1]
      simp only [qtyAt_pair_cons]
      ring
    · rw [if_neg h1]
      by_cases h2 : w = w0
      · subst h2
        rw [if_pos rfl]
        by_cases h3 : q0 + c = 0
        · rw [if_pos h3, qtyAt_pair_cons]
          by_cases hx : w = x
          · rw [if_pos hx, if_pos hx]
            omega
          · rw [if_neg hx, if_neg hx]
            omega
        · rw [if_neg h3, qtyAt_pair_cons, qtyAt_pair_cons]
          by_cases hx : w = x
          · rw [if_pos hx, if_pos hx, if_pos hx]
            ring
          · rw [if_neg hx, if_neg hx, if_neg hx]
            ring
      · rw [if_neg h2, qtyAt_pair_cons, qtyAt_pair_cons, ih]
        ring

theorem qtyAt_ledgerOf_addOutfitMap (g : OuterMap) (o : Nat) (c w x : Int)
    (hg : g.Pairwise (fun a b => a.1 < b.1)) :
    qtyAt (ledgerOf (addOutfitMap g o c w) o) x =
      qtyAt (ledgerOf g o) x + (if w = x then c else 0) := by
  induction g with
  | nil =>
    unfold addOutfitMap ledgerOf findLedger
    rw [if_pos rfl]
    dsimp only [Option.getD]
    rw [qtyAt_pair_cons]
    simp [qtyAt]
  | cons p rest ih =>
    obtain ⟨o0, m0⟩ := p
    have hhead : ∀ q ∈ rest, o0 < q.1 := fun q hq => (List.pairwise_cons.mp hg).1 q hq
    have hrest : rest.Pairwise (fun a b => a.1 < b.1) := (List.pairwise_cons.mp hg).2
    unfold addOutfitMap
    by_cases h1 : o < o0
    · rw [if_pos h1]
      have hnone : findLedger rest o = none := by
        refine findLedger_eq_none rest o (fun q hq => ?_)
        have := hhead q hq
        omega
      unfold ledgerOf findLedger
      rw [if_pos rfl, if_neg (by omega : ¬ o0 = o), hnone]
      dsimp only [Option.getD]
      rw [qtyAt_pair_cons]
      simp [qtyAt]
    · rw [if_neg h1]
      by_cases h2 : o = o0
      · rw [if_pos h2]
        have hnone : findLedger rest o = none := by
          refine findLedger_eq_none rest o (fun q hq => ?_)
          have := hhead q hq
          omega
        by_cases h3 : innerAdd m0 w c = []
        · rw [if_pos h3]
          have hL : ledgerOf rest o = [] := by
            show (findLedger rest o).getD [] = []
            rw [hnone]
            rfl
          have hR : ledgerOf ((o0, m0) :: rest) o = m0 := by
            show (if o0 = o then some m0 else findLedger rest o).getD [] = m0
            rw [if_pos h2.symm]
            rfl
          rw [hL, hR]
          have hia := qtyAt_innerAdd m0 w c x
          rw [h3] at hia
          simp only [qtyAt] at hia ⊢
          omega
        · rw [if_neg h3]
          unfold ledgerOf findLedger
          rw [if_pos h2.symm, if_pos h2.symm]
          dsimp only [Option.getD]
          exact qtyAt_innerAdd m0 w c x
      · rw [if_neg h2]
        unfold ledgerOf findLedger
        rw [if_neg (fun he : o0 = o => h2 he.symm), if_neg (fun he : o0 = o => h2 he.symm)]
        exact ih hrest

theorem qtyAt_depositMoved (dst : OuterMap) (o : Nat) (mv : InnerMap) (x : Int)
    (hd : GroupWF dst) (hmv : LedgerPos mv) :
    qtyAt (ledgerOf (depositMoved dst o mv) o) x =
      qtyAt (ledgerOf dst o) x + qtyAt mv x := by
  induction mv generalizing dst with
  | nil =>
    unfold depositMoved
    rw [List.foldl_nil]
    simp [qtyAt]
  | cons b rest ih =>
    unfold depositMoved
    rw [List.foldl_cons]
    have hb : 0 < b.2 := hmv b (List.mem_cons_self _ _)
    have hrest : LedgerPos rest := fun q hq => hmv q (List.mem_cons_of_mem _ hq)
    have heq : (addOutfit dst o b.2 b.1).2 = addOutfitMap dst o b.2 b.1 := rfl
    have hwf' := addOutfitMap_WF dst o b.2 b.1 hd hb
    have hih := ih ((addOutfit dst o b.2 b.1).2) (by rw [heq]; exact hwf') hrest
    unfold depositMoved at hih
    rw [hih, heq, qtyAt_ledgerOf_addOutfitMap dst o b.2 b.1 x hd.1.1, qtyAt_cons]
    ring

theorem ledgerOf_WF (g : OuterMap) (o : Nat) (h : GroupWF g) :
    LedgerSorted (ledgerOf g o) ∧ LedgerPos (ledgerOf g o) := by
  unfold ledgerOf
  cases hfind : findLedger g o with
  | none =>
    exact ⟨List.Pairwise.nil, fun b hb => absurd hb (List.not_mem_nil b)⟩
  | some m =>
    have hmem := findLedger_mem g o m hfind
    exact ⟨h.1.2 (o, m) hmem, (h.2 (o, m) hmem).2⟩

theorem qtyAt_head_not_in_tail (w q : Int) (r : InnerMap)
    (hs : LedgerSorted ((w, q) :: r)) : qtyAt r w = 0 := by
  refine qtyAt_eq_zero r w (fun b hb => ?_)
  have := (List.pairwise_cons.mp hs).1 b hb
  omega

/-- Two sorted, strictly positive wear ledgers with the same quantity at
every wear level are equal. -/
theorem ledger_ext (m1 m2 : InnerMap) (h1s : LedgerSorted m1) (h1p : LedgerPos m1)
    (h2s : LedgerSorted m2) (h2p : LedgerPos m2)
    (h : ∀ x, qtyAt m1 x = qtyAt m2 x) : m1 = m2 := by
  induction m1 generalizing m2 with
  | nil =>
    cases m2 with
    | nil => rfl
    | cons b2 r2 =>
      obtain ⟨w2, q2⟩ := b2
      have hq2 : 0 < q2 := h2p (w2, q2) (List.mem_cons_self _ _)
      have h0 := h w2
      rw [qtyAt, qtyAt_pair_cons, if_pos rfl, qtyAt_head_not_in_tail w2 q2 r2 h2s] at h0
      omega
  | cons b1 r1 ih =>
    obtain ⟨w1, q1⟩ := b1
    have hq1 : 0 < q1 := h1p (w1, q1) (List.mem_cons_self _ _)
    cases m2 with
    | nil =>
      have h0 := h w1
      rw [qtyAt_pair_cons, if_pos rfl, qtyAt_head_not_in_tail w1 q1 r1 h1s, qtyAt] at h0
      omega
    | cons b2 r2 =>
      obtain ⟨w2, q2⟩ := b2
      have hq2 : 0 < q2 := h2p (w2, q2) (List.mem_cons_self _ _)
      have hw : w1 = w2 := by
        by_contra hne
        have ha := h w1
        rw [qtyAt_pair_cons, if_pos rfl, qtyAt_head_not_in_tail w1 q1 r1 h1s,
          qtyAt_pair_cons, if_neg (by omega : ¬ w2 = w1)] at ha
        have hb := h w2
        rw [qtyAt_pair_cons, if_neg (by omega : ¬ w1 = w2),
          qtyAt_pair_cons, if_pos rfl, qtyAt_head_not_in_tail w2 q2 r2 h2s] at hb
        obtain ⟨c1, hc1, hc1k⟩ := exists_key_of_qtyAt_ne_zero r2 w1 (by omega)
        obtain ⟨c2, hc2, hc2k⟩ := exists_key_of_qtyAt_ne_zero r1 w2 (by omega)
        have hlt1 := (List.pairwise_cons.mp h2s).1 c1 hc1
        have hlt2 := (List.pairwise_cons.mp h1s).1 c2 hc2
        omega
      subst hw
      have hq : q1 = q2 := by
        have h0 := h w1
        rw [qtyAt_pair_cons, if_pos rfl, qtyAt_head_not_in_tail w1 q1 r1 h1s,
          qtyAt_pair_cons, if_pos rfl, qtyAt_head_not_in_tail w1 q2 r2 h2s] at h0
        omega
      subst hq
      have htail : ∀ x, qtyAt r1 x = qtyAt r2 x := by
        intro x
        by_cases hx : w1 = x
        · rw [← hx, qtyAt_head_not_in_tail w1 q1 r1 h1s, qtyAt_head_not_in_tail w1 q1 r2 h2s]
        · have h0 := h x
          rw [qtyAt_pair_cons, if_neg hx, qtyAt_pair_cons, if_neg hx] at h0
          omega
      exact congrArg (List.cons (w1, q1))
        (ih r2 (List.pairwise_cons.mp h1s).2 (fun b hb => h1p b (List.mem_cons_of_mem _ hb))
          (List.pairwise_cons.mp h2s).2 (fun b hb => h2p b (List.mem_cons_of_mem _ hb)) htail)

theorem specOf_conserve (mw : Bool) (c : Int) (m : InnerMap) (x : Int) :
    qtyAt (specRemainOf mw c m) x + qtyAt (specMovedOf mw c m) x = qtyAt m x := by
  unfold specRemainOf specMovedOf
  cases mw with
  | false =>
    simp only [Bool.false_eq_true, if_false]
    exact specDrain_conserve c m x
  | true =>
    simp only [if_true]
    rw [qtyAt_reverse]
    have := specDrain_conserve c m.reverse x
    rw [qtyAt_reverse] at this
    exact this

theorem movedLedger_pos (mw : Bool) (c : Int) (m : InnerMap) (h : LedgerPos m) :
    LedgerPos (movedLedger mw c m) := by
  unfold movedLedger
  cases mw with
  | false =>
    simp only [Bool.false_eq_true, if_false]
    exact specDrainMoved_pos c m h
  | true =>
    simp only [if_true]
    exact ledgerPos_reverse _ (specDrainMoved_pos c m.reverse (ledgerPos_reverse m h))

theorem qtyAt_movedLedger (mw : Bool) (c : Int) (m : InnerMap) (x : Int) :
    qtyAt (movedLedger mw c m) x = qtyAt (specMovedOf mw c m) x := by
  unfold movedLedger specMovedOf
  cases mw with
  | false => rfl
  | true =>
    simp only [if_true]
    exact qtyAt_reverse _ x

theorem ledgerTotal_movedLedger (mw : Bool) (c : Int) (m : InnerMap) (hc : 0 ≤ c)
    (h : LedgerPos m) : ledgerTotal (movedLedger mw c m) = min c (ledgerTotal m) := by
  unfold movedLedger
  cases mw with
  | false =>
    simp only [Bool.false_eq_true, if_false]
    exact ledgerTotal_specDrainMoved c m hc h
  | true =>
    simp only [if_true]
    rw [ledgerTotal_reverse,
      ledgerTotal_specDrainMoved c m.reverse hc (ledgerPos_reverse m h), ledgerTotal_reverse]

theorem specRemainOf_total_le (mw : Bool) (c : Int) (m : InnerMap) (h : LedgerPos m)
    (hc : ledgerTotal m ≤ c) : specRemainOf mw c m = [] := by
  unfold specRemainOf
  cases mw with
  | false =>
    simp only [Bool.false_eq_true, if_false]
    exact specDrainRemain_of_total_le c m h hc
  | true =>
    simp only [if_true]
    rw [specDrainRemain_of_total_le c m.reverse (ledgerPos_reverse m h)
      (by rw [ledgerTotal_reverse]; exact hc)]
    rfl

theorem ledgerOf_replaceLedger (g : OuterMap) (o : Nat) (m' : InnerMap)
    (hg : g.Pairwise (fun a b => a.1 < b.1)) (m : InnerMap) (hm : findLedger g o = some m) :
    ledgerOf (replaceLedger g o m') o = m' := by
  unfold ledgerOf
  rw [findLedger_replaceLedger g o m' hg m hm]
  by_cases hnil : m' = []
  · rw [if_pos hnil, hnil]
    rfl
  · rw [if_neg hnil]
    rfl

theorem transferPair_pos (a b : OuterMap) (o : Nat) (n : Int) (mw : Bool) (dw : Int)
    (hn : 0 < n) :
    transferPair a b o n mw dw =
      ((removeOutfitTo a o n mw b).1, (removeOutfitTo a o n mw b).2.1,
        (removeOutfitTo a o n mw b).2.2) := by
  unfold transferPair transferOutfits
  rw [if_neg (by omega : ¬ n = 0)]
  dsimp only
  rw [if_neg (by omega : ¬ n < 0)]
  rfl

/-- C2, counterexample: with A = {item: {wear 0: 1}} and B = {item: {wear 5:
1}}, transferring 1 unit most-worn-first from A to B and then 1 unit back
leaves A holding the wear-5 unit that originally belonged to B (the return
transfer drains B's own more-worn stock first), so the round trip does not
restore A's bucket contents even though n = 1 does not exceed A's available
quantity. -/
theorem transferPair_roundTrip_counterexample :
    (0 : ℤ) < 1 ∧ (1 : ℤ) ≤ getTotalCount [(0, [(0, 1)])] 0 ∧
    ¬ (ledgerOf (transferPair
          (transferPair [(0, [(0, 1)])] [(0, [(5, 1)])] 0 1 true 0).2.2
          (transferPair [(0, [(0, 1)])] [(0, [(5, 1)])] 0 1 true 0).2.1 0 1 true 0).2.2 0 =
        ledgerOf [(0, [(0, 1)])] 0) := by decide

/-- C2 (amended): for two well-formed inventories A and B where B initially
holds none of the item, any 0 < n not exceeding A's available quantity, and
either disposal policy, `Transfer(item, n, B)` on A followed by
`Transfer(item, n, A)` on B restores both A's and B's per-wear-level bucket
contents for that item. -/
theorem transferPair_roundTrip (a b : OuterMap) (o : Nat) (n : Int) (mw : Bool) (dw dw2 : Int)
    (ha : GroupWF a) (hb : GroupWF b) (hbo : findLedger b o = none)
    (hn : 0 < n) (hna : n ≤ getTotalCount a o) :
    ledgerOf (transferPair (transferPair a b o n mw dw).2.2
        (transferPair a b o n mw dw).2.1 o n mw dw2).2.2 o = ledgerOf a o ∧
    ledgerOf (transferPair (transferPair a b o n mw dw).2.2
        (transferPair a b o n mw dw).2.1 o n mw dw2).2.1 o = ledgerOf b o := by
  obtain ⟨m, hfind⟩ : ∃ m, findLedger a o = some m := by
    cases hf : findLedger a o with
    | none =>
      have h0 : getTotalCount a o = 0 := by
        unfold getTotalCount
        rw [hf]
      omega
    | some m => exact ⟨m, rfl⟩
  have hma : (o, m) ∈ a := findLedger_mem a o m hfind
  have hmp : LedgerPos m := (ha.2 (o, m) hma).2
  have hms : LedgerSorted m := ha.1.2 (o, m) hma
  have htotm : n ≤ ledgerTotal m := by
    have h0 : getTotalCount a o = ledgerTotal m := by
      unfold getTotalCount
      rw [hfind]
    omega
  have hstep1 : transferPair a b o n mw dw =
      (min n (ledgerTotal m),
       replaceLedger a o (specRemainOf mw n m),
       depositMoved b o (specMovedOf mw n m)) := by
    rw [transferPair_pos a b o n mw dw hn]
    unfold removeOutfitTo
    rw [removeOutfit_found a o n mw m hfind, applyDrain_eq mw n m hn hmp]
  rw [hstep1]
  dsimp only
  have hA1 : GroupWF (replaceLedger a o (specRemainOf mw n m)) :=
    replaceLedger_WF a o _ ha (specRemainOf_sorted mw n m hms) (specRemainOf_pos mw n m hmp)
  have hmvp : LedgerPos (specMovedOf mw n m) := specMovedOf_pos mw n m hmp
  have hB1 : GroupWF (depositMoved b o (specMovedOf mw n m)) :=
    depositMoved_WF b o _ hb hmvp
  have hmvAscS : LedgerSorted (movedLedger mw n m) := movedLedger_sorted mw n m hms
  have hmvAscP : LedgerPos (movedLedger mw n m) := movedLedger_pos mw n m hmp
  have hbq : ∀ x, qtyAt (ledgerOf b o) x = 0 := by
    intro x
    unfold ledgerOf
    rw [hbo]
    rfl
  have hB1q : ∀ x, qtyAt (ledgerOf (depositMoved b o (specMovedOf mw n m)) o) x
      = qtyAt (movedLedger mw n m) x := by
    intro x
    rw [qtyAt_depositMoved b o _ x hb hmvp, hbq x, qtyAt_movedLedger]
    omega
  have hB1led : ledgerOf (depositMoved b o (specMovedOf mw n m)) o = movedLedger mw n m := by
    have hw := ledgerOf_WF (depositMoved b o (specMovedOf mw n m)) o hB1
    exact ledger_ext _ _ hw.1 hw.2 hmvAscS hmvAscP hB1q
  have hmvtot : ledgerTotal (movedLedger mw n m) = n := by
    rw [ledgerTotal_movedLedger mw n m hn.le hmp]
    omega
  have hB1find : findLedger (depositMoved b o (specMovedOf mw n m)) o
      = some (movedLedger mw n m) := by
    have hne : movedLedger mw n m ≠ [] := by
      intro hcontra
      rw [hcontra, ledgerTotal_nil] at hmvtot
      omega
    unfold ledgerOf at hB1led
    cases hf : findLedger (depositMoved b o (specMovedOf mw n m)) o with
    | none =>
      rw [hf] at hB1led
      simp only [Option.getD_none] at hB1led
      exact absurd hB1led.symm hne
    | some L =>
      rw [hf] at hB1led
      simp only [Option.getD_some] at hB1led
      rw [hB1led]
  have hstep2 : transferPair (depositMoved b o (specMovedOf mw n m))
        (replaceLedger a o (specRemainOf mw n m)) o n mw dw2 =
      (min n (ledgerTotal (movedLedger mw n m)),
       replaceLedger (depositMoved b o (specMovedOf mw n m)) o
         (specRemainOf mw n (movedLedger mw n m)),
       depositMoved (replaceLedger a o (specRemainOf mw n m)) o
         (specMovedOf mw n (movedLedger mw n m))) := by
    rw [transferPair_pos _ _ o n mw dw2 hn]
    unfold removeOutfitTo
    rw [removeOutfit_found _ o n mw _ hB1find, applyDrain_eq mw n _ hn hmvAscP]
  rw [hstep2]
  dsimp only
  have hrem2 : specRemainOf mw n (movedLedger mw n m) = [] :=
    specRemainOf_total_le mw n _ hmvAscP (by omega)
  constructor
  · have hmv2p : LedgerPos (specMovedOf mw n (movedLedger mw n m)) :=
      specMovedOf_pos mw n _ hmvAscP
    have hA2 : GroupWF (depositMoved (replaceLedger a o (specRemainOf mw n m)) o
        (specMovedOf mw n (movedLedger mw n m))) :=
      depositMoved_WF _ o _ hA1 hmv2p
    have hA1led : ledgerOf (replaceLedger a o (specRemainOf mw n m)) o
        = specRemainOf mw n m :=
      ledgerOf_replaceLedger a o _ ha.1.1 m hfind
    have hmv2q : ∀ x, qtyAt (specMovedOf mw n (movedLedger mw n m)) x
        = qtyAt (movedLedger mw n m) x := by
      intro x
      have hcv := specOf_conserve mw n (movedLedger mw n m) x
      rw [hrem2] at hcv
      simp only [qtyAt] at hcv
      omega
    have hq : ∀ x, qtyAt (ledgerOf (depositMoved (replaceLedger a o (specRemainOf mw n m)) o
        (specMovedOf mw n (movedLedger mw n m))) o) x = qtyAt m x := by
      intro x
      rw [qtyAt_depositMoved _ o _ x hA1 hmv2p, hA1led, hmv2q x, qtyAt_movedLedger]
      have := specOf_conserve mw n m x
      omega
    have hw2 := ledgerOf_WF (depositMoved (replaceLedger a o (specRemainOf mw n m)) o
        (specMovedOf mw n (movedLedger mw n m))) o hA2
    have hled := ledger_ext _ _ hw2.1 hw2.2 hms hmp hq
    rw [hled]
    unfold ledgerOf
    rw [hfind]
    rfl
  · rw [hrem2, ledgerOf_replaceLedger _ o [] hB1.1.1 _ hB1find]
    unfold ledgerOf
    rw [hbo]
    rfl

/-- Witness for C2's amended theorem: A = {item: {0 ↦ 2, 3 ↦ 1}}, B empty,
transferring 2 units most-worn-first there and back. -/
theorem transferPair_roundTrip_witness :
    GroupWF [(0, [(0, 2), (3, 1)])] ∧ GroupWF [] ∧
    findLedger ([] : OuterMap) 0 = none ∧ (0 : ℤ) < 2 ∧
    (2 : ℤ) ≤ getTotalCount [(0, [(0, 2), (3, 1)])] 0 ∧
    (ledgerOf (transferPair (transferPair [(0, [(0, 2), (3, 1)])] [] 0 2 true 1).2.2
        (transferPair [(0, [(0, 2), (3, 1)])] [] 0 2 true 1).2.1 0 2 true 1).2.2 0 =
      ledgerOf [(0, [(0, 2), (3, 1)])] 0 ∧
     ledgerOf (transferPair (transferPair [(0, [(0, 2), (3, 1)])] [] 0 2 true 1).2.2
        (transferPair [(0, [(0, 2), (3, 1)])] [] 0 2 true 1).2.1 0 2 true 1).2.1 0 =
      ledgerOf ([] : OuterMap) 0) :=
  ⟨by decide, by decide, rfl, by decide, by decide,
    transferPair_roundTrip [(0, [(0, 2), (3, 1)])] [] 0 2 true 1 1 (by decide) (by decide)
      rfl (by decide) (by decide)⟩
